import Mathlib

/-!
Shallow embedding of the `sat_revsynth` ECA57 identity-circuit pipeline:
gates and circuit semantics (`src/gates/eca57.py`), the gate basis and
canonicalization (`src/database/basis.py`), the CNF builder
(`src/sat/cnf.py`), the SAT encoder exclusion (`src/synthesizers/eca57_synthesizer.py`),
the unroll engine (`src/database/unroll.py`), and the template/witness store
(`src/database/lmdb_env.py`, `templates.py`, `witnesses.py`).
-/

/- ===================== Definitions ===================== -/

/-- ECA57 gate `(target, ctrl1, ctrl2)` with semantics
`target ^= (ctrl1 OR NOT ctrl2)` (`src/src/gates/eca57.py`, `ECA57Gate`). -/
structure ECA57Gate where
  target : Nat
  ctrl1 : Nat
  ctrl2 : Nat
deriving DecidableEq, Repr

/-- The three wires of a gate are pairwise distinct and below the width
(`ECA57Gate.__post_init__` asserts distinctness, `ECA57Circuit.add_gate`
asserts the bounds). -/
def validGate (w : Nat) (g : ECA57Gate) : Prop :=
  g.target ≠ g.ctrl1 ∧ g.target ≠ g.ctrl2 ∧ g.ctrl1 ≠ g.ctrl2 ∧
  g.target < w ∧ g.ctrl1 < w ∧ g.ctrl2 < w

instance (w : Nat) (g : ECA57Gate) : Decidable (validGate w g) := by
  unfold validGate; infer_instance

/-- `ECA57Gate.apply`: copy the state and flip `state[target]` by
`state[ctrl1] OR NOT state[ctrl2]` (bits modelled as `Bool`). -/
def ECA57Gate.apply (g : ECA57Gate) (s : List Bool) : List Bool :=
  let c1 := s.getD g.ctrl1 false
  let c2 := s.getD g.ctrl2 false
  let condition := c1 || !c2
  s.set g.target (Bool.xor (s.getD g.target false) condition)

/-- `ECA57Circuit.apply`: apply all gates left to right. -/
def applyGates (gs : List ECA57Gate) (s : List Bool) : List Bool :=
  gs.foldl (fun acc g => g.apply acc) s

/-- Row `i` of the truth table: `[(i >> bit) & 1 for bit in range(width)]`
(`ECA57Circuit.compute_truth_table`). -/
def intToState (w : Nat) (i : Nat) : List Bool :=
  (List.range w).map (fun bit => i.testBit bit)

/-- The LSB-first value encoded by a bit list (inverse of `intToState`). -/
def stateToNat : List Bool → Nat
  | [] => 0
  | b :: rest => (if b then 1 else 0) + 2 * stateToNat rest

/-- A gate list computes the identity permutation on length-`w` bit vectors
(`ECA57Circuit.is_identity`). -/
def isIdentityOn (gs : List ECA57Gate) (w : Nat) : Prop :=
  ∀ s : List Bool, s.length = w → applyGates gs s = s

/-- Decidable check that two gates commute on every width-`w` state
(enumerating all `2^w` truth-table rows). -/
def semCommutesOn (w : Nat) (g1 g2 : ECA57Gate) : Bool :=
  (List.range (2 ^ w)).all fun i =>
    decide (g1.apply (g2.apply (intToState w i)) = g2.apply (g1.apply (intToState w i)))

/-- `ECA57Basis.touched_wires`: `[target, ctrl1, ctrl2]`. -/
def touchedWires (g : ECA57Gate) : List Nat :=
  [g.target, g.ctrl1, g.ctrl2]

/-- `ECA57Basis.commutes`: the two touched-wire sets are disjoint. -/
def eca57Commutes (g1 g2 : ECA57Gate) : Bool :=
  (touchedWires g1).all (fun w => !((touchedWires g2).contains w))

/-- `ECA57Circuit.gate_swappable(index, ignore_identical)`: gates at `index`
and `(index+1) % len` can be exchanged; identical gates are refused when
`ignore_identical`, otherwise only target-vs-control collisions are checked. -/
def gateSwappable (gates : List ECA57Gate) (index : Nat) (ignoreIdentical : Bool) : Bool :=
  match gates[index]?, gates[(index + 1) % gates.length]? with
  | some g1, some g2 =>
    if ignoreIdentical && g1 == g2 then false
    else
      let g1TargetCollision := g1.target == g2.ctrl1 || g1.target == g2.ctrl2
      let g2TargetCollision := g2.target == g1.ctrl1 || g2.target == g1.ctrl2
      !g1TargetCollision && !g2TargetCollision
  | _, _ => false

/-- `ECA57Basis.serialize_gate`: 3 bytes `(target, ctrl1, ctrl2)`. -/
def serializeGate (g : ECA57Gate) : List Nat :=
  [g.target, g.ctrl1, g.ctrl2]

/-- First-occurrence subsequence with an explicit seen-set, modelling the
`wire_map` dictionary built by `ECA57Basis.canonicalize`: the wires in order
of first occurrence (position in this list = assigned canonical index). -/
def firstOccsAux (seen : List Nat) : List Nat → List Nat
  | [] => []
  | w :: rest => if w ∈ seen then firstOccsAux seen rest else w :: firstOccsAux (w :: seen) rest

/-- The wires of a scan in order of first occurrence. -/
def firstOccs (l : List Nat) : List Nat :=
  firstOccsAux [] l

/-- ASCII bytes of the string `eca57:`. -/
def asciiEca57 : List Nat :=
  [101, 99, 97, 53, 55, 58]

/-- ASCII decimal digits of a natural number (bytes of `str(n)`). -/
def decDigits (n : Nat) : List Nat :=
  if n = 0 then [48] else ((Nat.digits 10 n).reverse.map (fun d => d + 48))

/-- `ECA57Basis.canonicalize`: relabel wires by first occurrence and return
the canonical gates together with the exact byte stream
`"eca57:{width}:{len}:" ++ serialized canonical gates` fed to BLAKE3 (for the
empty circuit the code hashes `"eca57:0:"`).  The 32-byte digest is a fixed
function of this stream, so equal streams give equal hashes. -/
def canonicalizeEca57 (gates : List ECA57Gate) (width : Nat) : List ECA57Gate × List Nat :=
  if gates = [] then ([], asciiEca57 ++ decDigits 0 ++ [58])
  else
    let occs := firstOccs (gates.flatMap touchedWires)
    let cgates := gates.map (fun g =>
      ⟨occs.indexOf g.target, occs.indexOf g.ctrl1, occs.indexOf g.ctrl2⟩)
    (cgates, asciiEca57 ++ decDigits width ++ [58] ++ decDigits gates.length ++ [58]
      ++ cgates.flatMap serializeGate)

/-- `ECA57Circuit.permute` / `unroll.permute_lines` on one gate: rewrite
every wire through `perm[w]`. -/
def permuteGate (π : List Nat) (g : ECA57Gate) : ECA57Gate :=
  ⟨π.getD g.target 0, π.getD g.ctrl1 0, π.getD g.ctrl2 0⟩

/-- Little-endian base-256 bytes of `n` on exactly `k` bytes
(one fixed-width integer field of a `struct.pack "<...>"` layout). -/
def leBytes : Nat → Nat → List Nat
  | 0, _ => []
  | k + 1, n => n % 256 :: leBytes k (n / 256)

/-- Value of a little-endian byte list (`struct.unpack` of one field). -/
def leDecode (bs : List Nat) : Nat :=
  bs.foldr (fun b acc => b + 256 * acc) 0

/-- The `32s` format of `struct.pack`: truncate to 32 bytes, pad with zero
bytes. -/
def pack32s (bs : List Nat) : List Nat :=
  bs.take 32 ++ List.replicate (32 - bs.length) 0

/-- `templates.OriginKind`: how a template was generated. -/
inductive OriginKind where
  | SAT
  | UNROLL
deriving DecidableEq, Repr

/-- Integer value of an `OriginKind` (`SAT = 1`, `UNROLL = 2`). -/
def OriginKind.val : OriginKind → Nat
  | .SAT => 1
  | .UNROLL => 2

/-- `OriginKind(v)`: fails on values other than 1 and 2. -/
def OriginKind.ofVal : Nat → Option OriginKind
  | 1 => some .SAT
  | 2 => some .UNROLL
  | _ => none

/-- `templates.TemplateRecord` (bytes modelled as `List Nat`). -/
structure TemplateRecord where
  template_id : Nat
  basis_id : Nat
  width : Nat
  gate_count : Nat
  canonical_hash : List Nat
  family_hash : List Nat
  origin : OriginKind
  origin_template_id : Option Nat
  unroll_ops : Nat
  gates_encoded : List Nat
deriving DecidableEq, Repr

/-- `TemplateRecord.to_bytes`: `struct.pack "<QBBH32s32sBQIH"` header followed
by the gate bytes; `origin_template_id or 0` maps both `None` and `0` to the
byte value 0; `none` models the `struct.error` raised on out-of-range
fields. -/
def TemplateRecord.to_bytes (r : TemplateRecord) : Option (List Nat) :=
  if r.template_id < 2 ^ 64 ∧ r.basis_id < 2 ^ 8 ∧ r.width < 2 ^ 8 ∧
      r.gate_count < 2 ^ 16 ∧ (r.origin_template_id.getD 0) < 2 ^ 64 ∧
      r.unroll_ops < 2 ^ 32 ∧ r.gates_encoded.length < 2 ^ 16 then
    some (leBytes 8 r.template_id ++ (leBytes 1 r.basis_id ++ (leBytes 1 r.width ++
      (leBytes 2 r.gate_count ++ (pack32s r.canonical_hash ++ (pack32s r.family_hash ++
      (leBytes 1 r.origin.val ++ (leBytes 8 (r.origin_template_id.getD 0) ++
      (leBytes 4 r.unroll_ops ++ (leBytes 2 r.gates_encoded.length ++
      r.gates_encoded))))))))))
  else none

/-- `TemplateRecord.from_bytes`: unpack the fixed 91-byte header
sequentially, take `gates_len` gate bytes, and map a zero
`origin_template_id` back to `None`; fails when the header is short or the
origin value is not 1 or 2. -/
def TemplateRecord.from_bytes (data : List Nat) : Option TemplateRecord :=
  if 91 ≤ data.length then
    let template_id := leDecode (data.take 8)
    let rest1 := data.drop 8
    let basis_id := leDecode (rest1.take 1)
    let rest2 := rest1.drop 1
    let width := leDecode (rest2.take 1)
    let rest3 := rest2.drop 1
    let gate_count := leDecode (rest3.take 2)
    let rest4 := rest3.drop 2
    let canonical_hash := rest4.take 32
    let rest5 := rest4.drop 32
    let family_hash := rest5.take 32
    let rest6 := rest5.drop 32
    let origin_val := leDecode (rest6.take 1)
    let rest7 := rest6.drop 1
    let origin_tid := leDecode (rest7.take 8)
    let rest8 := rest7.drop 8
    let unroll_ops := leDecode (rest8.take 4)
    let rest9 := rest8.drop 4
    let gates_len := leDecode (rest9.take 2)
    let rest10 := rest9.drop 2
    (OriginKind.ofVal origin_val).map (fun origin =>
      { template_id := template_id, basis_id := basis_id, width := width,
        gate_count := gate_count, canonical_hash := canonical_hash,
        family_hash := family_hash, origin := origin,
        origin_template_id := if origin_tid = 0 then none else some origin_tid,
        unroll_ops := unroll_ops, gates_encoded := rest10.take gates_len })
  else none

/-- `witnesses.WitnessRecord` (bytes modelled as `List Nat`). -/
structure WitnessRecord where
  witness_id : Nat
  basis_id : Nat
  width : Nat
  witness_len : Nat
  witness_hash : List Nat
  gates_encoded : List Nat
  source_template_id : Nat
deriving DecidableEq, Repr

/-- `WitnessRecord.to_bytes`: `struct.pack "<QBBH32sQH"` header followed by
the gate bytes. -/
def WitnessRecord.to_bytes (r : WitnessRecord) : Option (List Nat) :=
  if r.witness_id < 2 ^ 64 ∧ r.basis_id < 2 ^ 8 ∧ r.width < 2 ^ 8 ∧
      r.witness_len < 2 ^ 16 ∧ r.source_template_id < 2 ^ 64 ∧
      r.gates_encoded.length < 2 ^ 16 then
    some (leBytes 8 r.witness_id ++ (leBytes 1 r.basis_id ++ (leBytes 1 r.width ++
      (leBytes 2 r.witness_len ++ (pack32s r.witness_hash ++
      (leBytes 8 r.source_template_id ++ (leBytes 2 r.gates_encoded.length ++
      r.gates_encoded)))))))
  else none

/-- `WitnessRecord.from_bytes`: unpack the fixed 54-byte header sequentially
and take `gates_len` gate bytes. -/
def WitnessRecord.from_bytes (data : List Nat) : Option WitnessRecord :=
  if 54 ≤ data.length then
    let witness_id := leDecode (data.take 8)
    let rest1 := data.drop 8
    let basis_id := leDecode (rest1.take 1)
    let rest2 := rest1.drop 1
    let width := leDecode (rest2.take 1)
    let rest3 := rest2.drop 1
    let witness_len := leDecode (rest3.take 2)
    let rest4 := rest3.drop 2
    let witness_hash := rest4.take 32
    let rest5 := rest4.drop 32
    let source_template_id := leDecode (rest5.take 8)
    let rest6 := rest5.drop 8
    let gates_len := leDecode (rest6.take 2)
    let rest7 := rest6.drop 2
    some { witness_id := witness_id, basis_id := basis_id, width := width,
           witness_len := witness_len, witness_hash := witness_hash,
           gates_encoded := rest7.take gates_len,
           source_template_id := source_template_id }
  else none

/-- A concrete template record whose `origin_template_id` is `0`. -/
def tRecZero : TemplateRecord :=
  { template_id := 1, basis_id := 1, width := 3, gate_count := 2,
    canonical_hash := List.replicate 32 0, family_hash := List.replicate 32 0,
    origin := .SAT, origin_template_id := some 0, unroll_ops := 0,
    gates_encoded := [0, 1, 2, 1, 2, 0] }

/-- A concrete well-formed template record (used to instantiate round-trip
statements). -/
def tRecSample : TemplateRecord :=
  { template_id := 7, basis_id := 1, width := 4, gate_count := 2,
    canonical_hash := List.replicate 32 5, family_hash := List.replicate 32 9,
    origin := .UNROLL, origin_template_id := some 3, unroll_ops := 5,
    gates_encoded := [0, 1, 2, 1, 2, 3] }

/-- Bytes of `tRecSample`. -/
def tBytesSample : List Nat :=
  tRecSample.to_bytes.getD []

/-- A concrete well-formed witness record. -/
def wRecSample : WitnessRecord :=
  { witness_id := 2, basis_id := 1, width := 3, witness_len := 2,
    witness_hash := List.replicate 32 4, gates_encoded := [0, 1, 2, 1, 2, 0],
    source_template_id := 7 }

/-- Bytes of `wRecSample`. -/
def wBytesSample : List Nat :=
  wRecSample.to_bytes.getD []

/-- Lookup in an association list (a key-value sub-store of the LMDB
environment). -/
def getAssoc {K V : Type} [DecidableEq K] : List (K × V) → K → Option V
  | [], _ => none
  | (k, v) :: rest, key => if k = key then some v else getAssoc rest key

/-- Insert-or-overwrite in an association list (`txn.put`). -/
def setAssoc {K V : Type} [DecidableEq K] : List (K × V) → K → V → List (K × V)
  | [], key, v => [(key, v)]
  | (k, w) :: rest, key, v =>
    if k = key then (key, v) :: rest else (k, w) :: setAssoc rest key v

/-- `lmdb_env.SCHEMA_VERSION`. -/
def SCHEMA_VERSION : Nat := 1

/-- `lmdb_env.CANONICALIZATION_VERSION`. -/
def CANONICALIZATION_VERSION : Nat := 1

/-- `TemplateDBEnv._init_meta`: write the default meta entries only when
`schema_version` is absent; an existing meta database is left untouched. -/
def initMeta (meta : List (String × List Nat)) : List (String × List Nat) :=
  if (getAssoc meta "schema_version").isSome then meta
  else
    setAssoc (setAssoc (setAssoc (setAssoc (setAssoc meta
      "schema_version" (leBytes 4 SCHEMA_VERSION))
      "canonicalization_version" (leBytes 4 CANONICALIZATION_VERSION))
      "basis" [101, 99, 97, 53, 55])
      "template_count" (leBytes 8 0))
      "witness_count" (leBytes 8 0)

/-- `TemplateDBEnv.__init__` on an existing store (non-readonly): open the
six sub-databases and run `_init_meta`; the constructor compares no recorded
version against `SCHEMA_VERSION` or `CANONICALIZATION_VERSION` and has no
error path for a mismatch. -/
def templateDBEnvOpen (meta : List (String × List Nat)) :
    Except String (List (String × List Nat)) :=
  Except.ok (initMeta meta)

/-- Variable id of `t_{w}_{g}` in `ECA57Synthesizer._make_eca57_cnf`
(`IDPool` hands out 1, 2, 3, … in reservation order: all targets, then all
ctrl1s, then all ctrl2s, gate-major). -/
def tVar (width g w : Nat) : Nat :=
  g * width + w + 1

/-- Variable id of `c1_{w}_{g}`. -/
def c1Var (width gates g w : Nat) : Nat :=
  gates * width + (g * width + w) + 1

/-- Variable id of `c2_{w}_{g}`. -/
def c2Var (width gates g w : Nat) : Nat :=
  2 * (gates * width) + (g * width + w) + 1

/-- Truth value of a signed DIMACS literal under an assignment of the
positive variables. -/
def litVal (a : Nat → Bool) (l : Int) : Bool :=
  if 0 < l then a l.natAbs else !(a l.natAbs)

/-- A clause is satisfied when some literal is true. -/
def satClause (a : Nat → Bool) (c : List Int) : Bool :=
  c.any (litVal a)

/-- A clause set is satisfied when every clause is. -/
def satCNF (a : Nat → Bool) (cs : List (List Int)) : Bool :=
  cs.all (satClause a)

/-- The literal `v` with polarity `p` (`lit if cond else -lit` in
`exclude_solution`). -/
def signedLit (p : Bool) (v : Nat) : Int :=
  if p then (v : Int) else -(v : Int)

/-- The per-gate literals of `ECA57Synthesizer.exclude_solution`: for each
wire `w`, the target / ctrl1 / ctrl2 role literals, positive exactly on the
wires of the excluded gate. -/
def roleLits (width gates g : Nat) (gate : ECA57Gate) : List Int :=
  (List.range width).flatMap (fun w =>
    [signedLit (decide (w = gate.target)) (tVar width g w),
     signedLit (decide (w = gate.ctrl1)) (c1Var width gates g w),
     signedLit (decide (w = gate.ctrl2)) (c2Var width gates g w)])

/-- The full `exclusion_list` of `exclude_solution` over the enumerated
circuit gates. -/
def exclusionList (width gates : Nat) (circuit : List ECA57Gate) : List Int :=
  circuit.enum.flatMap (fun gi => roleLits width gates gi.1 gi.2)

/-- `CNF.exclude_by_values`: append the single clause of negated literals. -/
def exclude_by_values (cnf : List (List Int)) (literals : List Int) : List (List Int) :=
  cnf ++ [literals.map (fun l => -l)]

/-- `ECA57Synthesizer.exclude_solution`: build the exclusion list and append
its negation clause to the current CNF. -/
def excludeSolution (cnf : List (List Int)) (width gates : Nat)
    (circuit : List ECA57Gate) : List (List Int) :=
  exclude_by_values cnf (exclusionList width gates circuit)

/-- Sign patterns `product([1, -1], repeat = n)` iterated by `CNF.xor`
(modelled as the sections of `n` copies of `[1, -1]`; only the set of emitted
clauses matters). -/
def signPatterns (n : Nat) : List (List Int) :=
  (List.replicate n [(1 : Int), -1]).sections

/-- Clauses emitted by `CNF.xor` for at most 3 literals: one clause
`[one * id for one, id in zip(prod, ids)]` per sign pattern with
`(sum(prod) - len + 2) % 4 == 0` (Python `%` on a positive modulus agrees
with Lean's `Int` `%`). -/
def xorDirect (lits : List Int) : List (List Int) :=
  ((signPatterns lits.length).filter
    (fun p => (p.sum - (lits.length : Int) + 2) % 4 == 0)).map
    (fun p => List.zipWith (fun one a => one * a) p lits)

/-- `CNF.xor` with `_max_clause_len = 3`: the emitted clauses and the next
fresh internal variable id.  For more than 3 literals a fresh auxiliary
literal (the next pool id) splits the constraint into
`xor([aux] + literals[:2])` and `xor([aux] + literals[2:])`; the fuel
argument bounds the recursion depth (the list length suffices). -/
def xorClausesAux : Nat → List Int → Nat → List (List Int) × Nat
  | fuel, lits, next =>
    if lits.length ≤ 3 then (xorDirect lits, next)
    else
      match fuel with
      | 0 => ([], next)
      | fuel' + 1 =>
        let aux : Int := next
        let r1 := xorClausesAux fuel' (aux :: lits.take 2) (next + 1)
        let r2 := xorClausesAux fuel' (aux :: lits.drop 2) r1.2
        (r1.1 ++ r2.1, r2.2)

/-- The clauses added by one call `CNF.xor(lits)` when the pool's next fresh
id is `next`, together with the next fresh id afterwards. -/
def xorClauses (lits : List Int) (next : Nat) : List (List Int) × Nat :=
  xorClausesAux lits.length lits next

/-- The relevant state of the `CNF` builder: accumulated clauses and the
next fresh variable id of the `IDPool`. -/
structure CNFBuilder where
  clauses : List (List Int)
  next : Nat

/-- `CNF.xor` as a state transformer: append the emitted clauses and advance
the fresh-variable counter. -/
def cnfXor (st : CNFBuilder) (lits : List Int) : CNFBuilder :=
  { clauses := st.clauses ++ (xorClauses lits st.next).1,
    next := (xorClauses lits st.next).2 }

/-- `basis.BASIS_ECA57`. -/
def BASIS_ECA57 : Nat := 1

/-- Key of `templates_by_hash`: `u8 basis ‖ u8 width ‖ u16 gc ‖ 32B hash`
(the digest is kept as a byte list). -/
structure TKey where
  basis : Nat
  width : Nat
  gc : Nat
  hash : List Nat
deriving DecidableEq, Repr

/-- Key of `templates_by_dims`: `u8 basis ‖ u8 width ‖ u16 gc ‖ u64 id`. -/
structure DimsKey where
  basis : Nat
  width : Nat
  gc : Nat
  template_id : Nat
deriving DecidableEq, Repr

/-- Key of `template_families`: `u8 basis ‖ 32B family hash`. -/
structure FamKey where
  basis : Nat
  hash : List Nat
deriving DecidableEq, Repr

/-- The mutable state of one template store: the three template sub-stores
(as association lists in insertion order) and the `template_count` meta
counter. -/
structure StoreState where
  templates_by_hash : List (TKey × TemplateRecord)
  templates_by_dims : List (DimsKey × List Nat)
  template_families : List (FamKey × List Nat)
  template_count : Nat

/-- A freshly initialized store. -/
def emptyStore : StoreState :=
  ⟨[], [], [], 0⟩

/-- `templates.encode_gates_eca57`: 3 bytes per gate. -/
def encode_gates_eca57 (gates : List ECA57Gate) : List Nat :=
  gates.flatMap (fun g => [g.target, g.ctrl1, g.ctrl2])

/-- `TemplateDBEnv.add_to_family`: append the id to the existing packed
list, or start a new one. -/
def addToFamily (families : List (FamKey × List Nat)) (key : FamKey) (tid : Nat) :
    List (FamKey × List Nat) :=
  match getAssoc families key with
  | some existing => setAssoc families key (existing ++ [tid])
  | none => setAssoc families key [tid]

/-- The arguments of one `TemplateStore.insert_template` call. -/
structure InsertIn where
  gates : List ECA57Gate
  width : Nat
  origin : OriginKind
  origin_template_id : Option Nat
  unroll_ops : Nat
  family_hash : Option (List Nat)

/-- The digest of an insert input's canonical byte stream under the hash
function `H` (the model of `blake3(...).digest()`). -/
def digestOf (H : List Nat → List Nat) (inp : InsertIn) : List Nat :=
  H (canonicalizeEca57 inp.gates inp.width).2

/-- The `templates_by_hash` key an insert input dedups on. -/
def keyOf (H : List Nat → List Nat) (inp : InsertIn) : TKey :=
  ⟨BASIS_ECA57, inp.width, inp.gates.length, digestOf H inp⟩

/-- `TemplateStore.insert_template`: canonicalize, dedup on the primary key,
then allocate `template_id = template_count + 1`, write the record, the dims
back-reference and the family entry in one transaction.  Parameterized by
the digest function `H`. -/
def insert_template (H : List Nat → List Nat) (st : StoreState) (inp : InsertIn) :
    Option TemplateRecord × StoreState :=
  let cres := canonicalizeEca57 inp.gates inp.width
  let canonical_hash := H cres.2
  let gate_count := inp.gates.length
  let gates_encoded := encode_gates_eca57 cres.1
  let family_hash := inp.family_hash.getD canonical_hash
  let key : TKey := ⟨BASIS_ECA57, inp.width, gate_count, canonical_hash⟩
  match getAssoc st.templates_by_hash key with
  | some _ => (none, st)
  | none =>
    let template_id := st.template_count + 1
    let record : TemplateRecord :=
      { template_id := template_id, basis_id := BASIS_ECA57, width := inp.width,
        gate_count := gate_count, canonical_hash := canonical_hash,
        family_hash := family_hash, origin := inp.origin,
        origin_template_id := inp.origin_template_id, unroll_ops := inp.unroll_ops,
        gates_encoded := gates_encoded }
    (some record,
      { templates_by_hash := setAssoc st.templates_by_hash key record,
        templates_by_dims := setAssoc st.templates_by_dims
          ⟨BASIS_ECA57, inp.width, gate_count, template_id⟩ canonical_hash,
        template_families := addToFamily st.template_families
          ⟨BASIS_ECA57, family_hash⟩ template_id,
        template_count := template_id })

/-- Run a sequence of `insert_template` calls. -/
def processInserts (H : List Nat → List Nat) (inputs : List InsertIn)
    (st : StoreState) : StoreState :=
  inputs.foldl (fun s inp => (insert_template H s inp).2) st

/-- Keep the first occurrence of every value (the distinct values of a list,
in order). -/
def dedupKeys {κ : Type} [DecidableEq κ] (l : List κ) : List κ :=
  l.foldl (fun acc k => if k ∈ acc then acc else acc ++ [k]) []

/-- `templates.decode_gates_eca57`: read byte triples as gates (a trailing
fragment of fewer than 3 bytes would raise an IndexError in the source; the
model is used only on well-formed encodings whose length is a multiple of
3). -/
def decodeGatesEca57 : List Nat → List ECA57Gate
  | t :: c1 :: c2 :: rest => ⟨t, c1, c2⟩ :: decodeGatesEca57 rest
  | _ => []

/-- `witnesses.compute_witness_length`: `gc // 2 + 1`. -/
def compute_witness_length (gate_count : Nat) : Nat :=
  gate_count / 2 + 1

/-- Key of `witnesses_by_hash`: `u8 basis ‖ u8 width ‖ u16 len ‖ 32B hash`. -/
structure WKey where
  basis : Nat
  width : Nat
  wlen : Nat
  hash : List Nat
deriving DecidableEq, Repr

/-- Key of `witness_prefilter`: `u8 basis ‖ u8 width ‖ u64 token`. -/
structure PKey where
  basis : Nat
  width : Nat
  token : Nat
deriving DecidableEq, Repr

/-- The mutable state of one witness store. -/
structure WStoreState where
  witnesses_by_hash : List (WKey × WitnessRecord)
  witness_prefilter : List (PKey × List Nat)
  witness_count : Nat

/-- `witnesses.compute_kgram_tokens`: for every length-`k` sliding window,
canonicalize it and read the first 8 digest bytes as a little-endian u64
(the digest returned by `H` stands for the 32-byte BLAKE3 digest). -/
def compute_kgram_tokens (H : List Nat → List Nat) (gates : List ECA57Gate)
    (k : Nat) (width : Nat) : List Nat :=
  if gates.length < k then []
  else (List.range (gates.length - k + 1)).map (fun i =>
    leDecode ((H ((canonicalizeEca57 ((gates.drop i).take k) width).2)).take 8))

/-- `TemplateDBEnv.add_to_prefilter`: append the witness id to the token's
bucket, or start a new bucket. -/
def addToPrefilter (pf : List (PKey × List Nat)) (key : PKey) (wid : Nat) :
    List (PKey × List Nat) :=
  match getAssoc pf key with
  | some existing => setAssoc pf key (existing ++ [wid])
  | none => setAssoc pf key [wid]

/-- `WitnessStore.insert_witness` with the default `k_gram_sizes = [2, 3]`:
canonicalize, dedup on `(basis, width, witness_len, witness_hash)`, then
store the record under `witness_id = witness_count + 1` and append the id to
the prefilter bucket of every k-gram token of the canonical gates. -/
def insert_witness (H : List Nat → List Nat) (st : WStoreState)
    (gates : List ECA57Gate) (width : Nat) (source_template_id : Nat) :
    Option WitnessRecord × WStoreState :=
  let witness_len := gates.length
  let cres := canonicalizeEca57 gates width
  let witness_hash := H cres.2
  let gates_encoded := cres.1.flatMap (fun g => [g.target, g.ctrl1, g.ctrl2])
  let key : WKey := ⟨BASIS_ECA57, width, witness_len, witness_hash⟩
  match getAssoc st.witnesses_by_hash key with
  | some _ => (none, st)
  | none =>
    let witness_id := st.witness_count + 1
    let record : WitnessRecord :=
      ⟨witness_id, BASIS_ECA57, width, witness_len, witness_hash,
        gates_encoded, source_template_id⟩
    let pf := ([2, 3] : List Nat).foldl (fun acc k =>
        (compute_kgram_tokens H cres.1 k width).foldl
          (fun acc2 token => addToPrefilter acc2 ⟨BASIS_ECA57, width, token⟩ witness_id)
          acc)
      st.witness_prefilter
    (some record,
      { witnesses_by_hash := setAssoc st.witnesses_by_hash key record,
        witness_prefilter := pf,
        witness_count := witness_id })

/-- `WitnessStore.build_witnesses_from_template`: decode the template's
canonical gates, slice the first `gc // 2 + 1`, and insert that prefix as a
witness; other bases raise `NotImplementedError`. -/
def build_witnesses_from_template (H : List Nat → List Nat) (st : WStoreState)
    (tmpl : TemplateRecord) : Except String (Option WitnessRecord × WStoreState) :=
  if tmpl.basis_id = BASIS_ECA57 then
    let gates := decodeGatesEca57 tmpl.gates_encoded
    let witness_len := compute_witness_length gates.length
    Except.ok (insert_witness H st (gates.take witness_len) tmpl.width tmpl.template_id)
  else Except.error "NotImplementedError"

/-- The prefix-witness gate list of a template. -/
def witnessGatesOf (tmpl : TemplateRecord) : List ECA57Gate :=
  (decodeGatesEca57 tmpl.gates_encoded).take
    (compute_witness_length (decodeGatesEca57 tmpl.gates_encoded).length)

/-- The dedup key its insertion uses. -/
def witnessKeyOf (H : List Nat → List Nat) (tmpl : TemplateRecord) : WKey :=
  ⟨BASIS_ECA57, tmpl.width, (witnessGatesOf tmpl).length,
    H (canonicalizeEca57 (witnessGatesOf tmpl) tmpl.width).2⟩

/-- All k-gram tokens (k = 2 then k = 3) of the canonical witness gates. -/
def witnessTokensOf (H : List Nat → List Nat) (tmpl : TemplateRecord) : List Nat :=
  compute_kgram_tokens H (canonicalizeEca57 (witnessGatesOf tmpl) tmpl.width).1
      2 tmpl.width ++
    compute_kgram_tokens H (canonicalizeEca57 (witnessGatesOf tmpl) tmpl.width).1
      3 tmpl.width

/-- `unroll.UNROLL_MIRROR`. -/
def UNROLL_MIRROR : Nat := 1

/-- `unroll.UNROLL_PERMUTE`. -/
def UNROLL_PERMUTE : Nat := 2

/-- `unroll.UNROLL_ROTATE`. -/
def UNROLL_ROTATE : Nat := 4

/-- `unroll.UNROLL_SWAP`. -/
def UNROLL_SWAP : Nat := 8

/-- `unroll.mirror`: reverse the gate order, inverting each gate —
`ECA57Basis.invert` is the identity since ECA57 gates are self-inverse. -/
def mirrorEca57 (gates : List ECA57Gate) : List ECA57Gate :=
  gates.reverse

/-- `unroll.rotate`: cyclic left rotation by `r`. -/
def rotate (gates : List ECA57Gate) (r : Nat) : List ECA57Gate :=
  if gates.isEmpty ∨ r = 0 then gates
  else gates.drop (r % gates.length) ++ gates.take (r % gates.length)

/-- `unroll.adjacent_commuting_pairs`: indices of adjacent commuting gate
pairs. -/
def adjacentCommutingPairs (gates : List ECA57Gate) : List Nat :=
  (List.range (gates.length - 1)).filter (fun i =>
    eca57Commutes (gates.getD i ⟨0, 1, 2⟩) (gates.getD (i + 1) ⟨0, 1, 2⟩))

/-- `unroll.swap_at`: exchange the gates at `idx` and `idx + 1`. -/
def swapAt (gates : List ECA57Gate) (idx : Nat) : List ECA57Gate :=
  match gates[idx]?, gates[idx + 1]? with
  | some a, some b => (gates.set idx b).set (idx + 1) a
  | _, _ => gates

/-- `unroll.gate_swap_dfs` loop body: pop the queue head, yield it, and push
every unseen commuting swap (dedup by canonical digest); `fuel` is the
remaining node budget. -/
def gateSwapBfsAux (H : List Nat → List Nat) (width : Nat) :
    Nat → List (List ECA57Gate) → List (List Nat) → List (List ECA57Gate)
  | 0, _, _ => []
  | _ + 1, [], _ => []
  | fuel + 1, current :: queue, visited =>
    let step := (adjacentCommutingPairs current).foldl
      (fun (acc : List (List ECA57Gate) × List (List Nat)) idx =>
        let swapped := swapAt current idx
        let h := H (canonicalizeEca57 swapped width).2
        if h ∈ acc.2 then acc else (acc.1 ++ [swapped], h :: acc.2))
      (queue, visited)
    current :: gateSwapBfsAux H width fuel step.1 step.2

/-- `unroll.gate_swap_dfs`: BFS over commuting swaps bounded by `maxNodes`,
seeded with the input list and its canonical digest. -/
def gateSwapDfs (H : List Nat → List Nat) (gates : List ECA57Gate)
    (width : Nat) (maxNodes : Nat) : List (List ECA57Gate) :=
  gateSwapBfsAux H width maxNodes [gates] [H (canonicalizeEca57 gates width).2]

/-- Lexicographic selection of permutations of a list (the order of
`itertools.permutations` on sorted input); the fuel is the list length. -/
def permsLexAux : Nat → List Nat → List (List Nat)
  | 0, _ => [[]]
  | fuel + 1, l =>
    if l = [] then [[]]
    else (List.range l.length).flatMap (fun i =>
      (permsLexAux fuel (l.eraseIdx i)).map (fun p => l.getD i 0 :: p))

/-- All permutations of a list in `itertools.permutations` order. -/
def permsLex (l : List Nat) : List (List Nat) :=
  permsLexAux l.length l

/-- `unroll.UnrollConfig` (defaults as in the source). -/
structure UnrollConfig where
  do_mirror : Bool := true
  do_permute : Bool := true
  do_rotate : Bool := true
  do_swap_dfs : Bool := true
  swap_dfs_budget : Nat := 1000
  max_permutations : Nat := 24

/-- `unroll_template` stage 1: the original plus, when `do_mirror`, its
mirror. -/
def unrollBase1 (gates : List ECA57Gate) (config : UnrollConfig) :
    List (List ECA57Gate × Nat) :=
  if config.do_mirror then
    [(gates, 0)] ++ [(mirrorEca57 gates, UNROLL_MIRROR)]
  else [(gates, 0)]

/-- `unroll_template` stage 2: append every rotation (and, when `do_mirror`,
its mirror) for `r = 1 .. len-1` when `do_rotate` and the list has at least
two gates. -/
def unrollBase2 (gates : List ECA57Gate) (config : UnrollConfig) :
    List (List ECA57Gate × Nat) :=
  if config.do_rotate = true ∧ 1 < gates.length then
    unrollBase1 gates config ++
      (List.range' 1 (gates.length - 1)).flatMap (fun r =>
        (rotate gates r, UNROLL_ROTATE) ::
          (if config.do_mirror then
            [(mirrorEca57 (rotate gates r), UNROLL_ROTATE ||| UNROLL_MIRROR)]
          else []))
  else unrollBase1 gates config

/-- `unroll_template` stage 3: wire permutations of every base variant
(permutation list truncated to `max_permutations`, identity permutation
skipped). -/
def unrollPermuted (gates : List ECA57Gate) (width : Nat)
    (config : UnrollConfig) : List (List ECA57Gate × Nat) :=
  let perms0 := permsLex (List.range width)
  let perms := if config.max_permutations < perms0.length then
      perms0.take config.max_permutations
    else perms0
  if config.do_permute then
    (unrollBase2 gates config).flatMap (fun vp =>
      (perms.filter (fun p => p ≠ List.range width)).map (fun p =>
        (vp.1.map (permuteGate p), vp.2 ||| UNROLL_PERMUTE)))
  else []

/-- `unroll.unroll_template`: base variants (original, mirror, rotations and
their mirrors), then wire permutations of every base variant, then — when
`do_swap_dfs` — a commuting-swap BFS from every accumulated variant. -/
def unrollTemplate (H : List Nat → List Nat) (gates : List ECA57Gate)
    (width : Nat) (config : UnrollConfig) : List (List ECA57Gate × Nat) :=
  let allv := unrollBase2 gates config ++ unrollPermuted gates width config
  if config.do_swap_dfs then
    allv.flatMap (fun vp =>
      (gateSwapDfs H vp.1 width config.swap_dfs_budget).map
        (fun s => (s, vp.2 ||| UNROLL_SWAP)))
  else allv

/-- Gather a state through an index list: entry `i` of the result is the
source state's entry `ρ[i]`. -/
def gatherState (ρ : List Nat) (s : List Bool) : List Bool :=
  ρ.map (fun j => s.getD j false)

/-- The inverse of a duplicate-free wire permutation. -/
def invPerm (π : List Nat) : List Nat :=
  (List.range π.length).map (fun j => π.indexOf j)

/- ===================== Supporting lemmas ===================== -/

theorem getD_set_of_ne {α : Type} {l : List α} {i j : Nat} (h : i ≠ j) (a : α) (d : α) :
    (l.set i a).getD j d = l.getD j d := by
  simp [List.getD_eq_getElem?_getD, List.getElem?_set_ne h]

theorem getD_set_self {α : Type} {l : List α} {i : Nat} (h : i < l.length) (a : α) (d : α) :
    (l.set i a).getD i d = a := by
  simp [List.getD_eq_getElem?_getD, List.getElem?_set_self, h]

theorem touchedWires_disjoint_elim {g1 g2 : ECA57Gate}
    (h : ∀ w ∈ touchedWires g1, w ∉ touchedWires g2) :
    g1.target ≠ g2.target ∧ g1.target ≠ g2.ctrl1 ∧ g1.target ≠ g2.ctrl2 ∧
    g1.ctrl1 ≠ g2.target ∧ g1.ctrl1 ≠ g2.ctrl1 ∧ g1.ctrl1 ≠ g2.ctrl2 ∧
    g1.ctrl2 ≠ g2.target ∧ g1.ctrl2 ≠ g2.ctrl1 ∧ g1.ctrl2 ≠ g2.ctrl2 := by
  simp only [touchedWires, List.mem_cons, List.mem_singleton, List.not_mem_nil] at h
  have h1 := h g1.target (by simp)
  have h2 := h g1.ctrl1 (by simp)
  have h3 := h g1.ctrl2 (by simp)
  push_neg at h1 h2 h3
  exact ⟨h1.1, h1.2.1, h1.2.2.1, h2.1, h2.2.1, h2.2.2.1, h3.1, h3.2.1, h3.2.2.1⟩

/-- Gates touching disjoint wire sets commute on every state. -/
theorem apply_comm_of_disjoint (g1 g2 : ECA57Gate)
    (h : ∀ w ∈ touchedWires g1, w ∉ touchedWires g2) (s : List Bool) :
    g1.apply (g2.apply s) = g2.apply (g1.apply s) := by
  obtain ⟨htt, htc1, htc2, hc1t, _, _, hc2t, _, _⟩ := touchedWires_disjoint_elim h
  have hne : ∀ w ∈ touchedWires g2, w ∉ touchedWires g1 := by
    intro w hw hw1
    exact h w hw1 hw
  obtain ⟨htt2, htc1b, htc2b, _, _, _, _, _, _⟩ := touchedWires_disjoint_elim hne
  simp only [ECA57Gate.apply]
  rw [getD_set_of_ne htt2, getD_set_of_ne htc1b, getD_set_of_ne htc2b,
    getD_set_of_ne htt, getD_set_of_ne htc1, getD_set_of_ne htc2]
  exact List.set_comm _ _ _ htt2

/-- `eca57Commutes` is exactly pairwise disjointness of the touched wires. -/
theorem eca57Commutes_iff_disjoint (g1 g2 : ECA57Gate) :
    eca57Commutes g1 g2 = true ↔ ∀ w ∈ touchedWires g1, w ∉ touchedWires g2 := by
  simp [eca57Commutes, List.all_eq_true]

theorem stateToNat_lt (s : List Bool) : stateToNat s < 2 ^ s.length := by
  induction s with
  | nil => simp [stateToNat]
  | cons b rest ih =>
    simp only [stateToNat, List.length_cons, pow_succ]
    cases b <;> simp <;> omega

theorem intToState_stateToNat (s : List Bool) : intToState s.length (stateToNat s) = s := by
  induction s with
  | nil => simp [intToState]
  | cons b rest ih =>
    have head : (stateToNat (b :: rest)).testBit 0 = b := by
      rw [Nat.testBit_zero]
      cases b <;> simp [stateToNat]
    have tail : ∀ k : Nat, (stateToNat (b :: rest)).testBit (k + 1) = (stateToNat rest).testBit k := by
      intro k
      rw [Nat.testBit_add_one]
      congr 1
      simp only [stateToNat]
      cases b
      · simp
      · simp
        omega
    simp only [intToState, List.length_cons, List.range_succ_eq_map, List.map_cons,
      List.map_map]
    refine List.cons_eq_cons.mpr ⟨head, ?_⟩
    have hfun : ((fun bit => (stateToNat (b :: rest)).testBit bit) ∘ Nat.succ) =
        fun k => (stateToNat rest).testBit k := by
      funext k
      simp only [Function.comp_apply, Nat.succ_eq_add_one]
      exact tail k
    rw [hfun]
    have := ih
    simp only [intToState] at this
    exact this

/-- The decidable all-rows check coincides with commutation on every
length-`w` state. -/
theorem semCommutesOn_eq_true_iff (w : Nat) (g1 g2 : ECA57Gate) :
    semCommutesOn w g1 g2 = true ↔
      ∀ s : List Bool, s.length = w →
        g1.apply (g2.apply s) = g2.apply (g1.apply s) := by
  simp only [semCommutesOn, List.all_eq_true, List.mem_range, decide_eq_true_eq]
  constructor
  · intro h s hs
    have := h (stateToNat s) (by rw [← hs]; exact stateToNat_lt s)
    rwa [← hs, intToState_stateToNat s] at this
  · intro h i _
    exact h (intToState w i) (by simp [intToState])

theorem mem_firstOccsAux {seen : List Nat} {l : List Nat} {x : Nat}
    (h : x ∈ firstOccsAux seen l) : x ∈ l := by
  induction l generalizing seen with
  | nil => simp [firstOccsAux] at h
  | cons w rest ih =>
    simp only [firstOccsAux] at h
    by_cases hw : w ∈ seen
    · simp only [if_pos hw] at h
      exact List.mem_cons_of_mem _ (ih h)
    · simp only [if_neg hw, List.mem_cons] at h
      rcases h with h | h
      · exact h ▸ List.mem_cons_self _ _
      · exact List.mem_cons_of_mem _ (ih h)

theorem firstOccsAux_map {f : Nat → Nat} {seen l : List Nat}
    (hinj : ∀ a b, (a ∈ l ∨ a ∈ seen) → (b ∈ l ∨ b ∈ seen) → f a = f b → a = b) :
    firstOccsAux (seen.map f) (l.map f) = (firstOccsAux seen l).map f := by
  induction l generalizing seen with
  | nil => simp [firstOccsAux]
  | cons w rest ih =>
    have hmem : (f w ∈ seen.map f) ↔ (w ∈ seen) := by
      constructor
      · intro h
        obtain ⟨x, hx, hfx⟩ := List.mem_map.mp h
        have := hinj x w (Or.inr hx) (Or.inl (List.mem_cons_self _ _)) hfx
        exact this ▸ hx
      · intro h
        exact List.mem_map.mpr ⟨w, h, rfl⟩
    simp only [List.map_cons, firstOccsAux]
    by_cases hw : w ∈ seen
    · rw [if_pos (hmem.mpr hw), if_pos hw]
      exact ih (fun a b ha hb => hinj a b
        (ha.imp (fun h => List.mem_cons_of_mem _ h) id)
        (hb.imp (fun h => List.mem_cons_of_mem _ h) id))
    · rw [if_neg (fun h => hw (hmem.mp h)), if_neg hw]
      simp only [List.map_cons]
      congr 1
      have : (w :: seen).map f = f w :: seen.map f := rfl
      rw [← this]
      exact ih (fun a b ha hb => hinj a b
        (by rcases ha with h | h
            · exact Or.inl (List.mem_cons_of_mem _ h)
            · rcases List.mem_cons.mp h with h | h
              · exact Or.inl (h ▸ List.mem_cons_self _ _)
              · exact Or.inr h)
        (by rcases hb with h | h
            · exact Or.inl (List.mem_cons_of_mem _ h)
            · rcases List.mem_cons.mp h with h | h
              · exact Or.inl (h ▸ List.mem_cons_self _ _)
              · exact Or.inr h))

theorem indexOf_map {f : Nat → Nat} {l : List Nat} {x : Nat}
    (hinj : ∀ a ∈ l, f a = f x → a = x) :
    (l.map f).indexOf (f x) = l.indexOf x := by
  induction l with
  | nil => simp
  | cons a rest ih =>
    by_cases hax : a = x
    · subst hax
      simp [List.indexOf_cons_self]
    · have hfa : f a ≠ f x := fun h => hax (hinj a (List.mem_cons_self _ _) h)
      rw [List.map_cons, List.indexOf_cons_ne _ (by simpa using hfa),
        List.indexOf_cons_ne _ (by simpa using hax)]
      exact congrArg (· + 1) (ih (fun b hb => hinj b (List.mem_cons_of_mem _ hb)))

/- ===================== Claim theorems ===================== -/

/-- C2 counterexample: the gates `(0,1,2)` and `(0,2,1)` share all three
wires, so `ECA57Basis.commutes` returns `False`, yet they commute on every
3-wire state — refuting the claimed "if and only if". -/
theorem C2_counterexample :
    eca57Commutes ⟨0, 1, 2⟩ ⟨0, 2, 1⟩ = false ∧
    semCommutesOn 3 ⟨0, 1, 2⟩ ⟨0, 2, 1⟩ = true := by decide

/-- C2 (amended): `ECA57Basis.commutes` computes exactly disjointness of the
touched wire sets, and disjointness is sufficient for the two gates to
commute on every state; it is not necessary (see the counterexample). -/
theorem C2_commutes_amended (g1 g2 : ECA57Gate) :
    (eca57Commutes g1 g2 = true ↔ ∀ w ∈ touchedWires g1, w ∉ touchedWires g2)
    ∧ (eca57Commutes g1 g2 = true →
        ∀ s : List Bool, g1.apply (g2.apply s) = g2.apply (g1.apply s)) := by
  refine ⟨eca57Commutes_iff_disjoint g1 g2, ?_⟩
  intro hc s
  exact apply_comm_of_disjoint g1 g2 ((eca57Commutes_iff_disjoint g1 g2).mp hc) s

/-- C2 witness: the amended theorem applied to the disjoint gates `(0,1,2)`
and `(3,4,5)` on a concrete 6-bit state. -/
theorem C2_commutes_amended_witness :
    ECA57Gate.apply ⟨0, 1, 2⟩ (ECA57Gate.apply ⟨3, 4, 5⟩
        [true, false, true, false, true, false]) =
      ECA57Gate.apply ⟨3, 4, 5⟩ (ECA57Gate.apply ⟨0, 1, 2⟩
        [true, false, true, false, true, false]) :=
  (C2_commutes_amended ⟨0, 1, 2⟩ ⟨3, 4, 5⟩).2 (by decide)
    [true, false, true, false, true, false]

/-- C10: with its default arguments `gate_swappable` refuses equal adjacent
gates, and for unequal gates returns `True` exactly when neither target is a
control wire of the other gate (sharing controls alone does not block a
swap). -/
theorem C10_gate_swappable (gates : List ECA57Gate) (i : Nat)
    (g1 g2 : ECA57Gate) (h1 : gates[i]? = some g1)
    (h2 : gates[(i + 1) % gates.length]? = some g2) :
    (g1 = g2 → gateSwappable gates i true = false) ∧
    (g1 ≠ g2 → (gateSwappable gates i true = true ↔
      (g1.target ≠ g2.ctrl1 ∧ g1.target ≠ g2.ctrl2 ∧
       g2.target ≠ g1.ctrl1 ∧ g2.target ≠ g1.ctrl2))) := by
  unfold gateSwappable
  rw [h1, h2]
  constructor
  · intro he
    subst he
    simp
  · intro hne
    have : (g1 == g2) = false := by
      simp [hne]
    simp [this]
    tauto

/-- C10 witness: two distinct gates sharing both control wires are
swappable. -/
theorem C10_gate_swappable_witness :
    gateSwappable [⟨0, 1, 2⟩, ⟨3, 1, 2⟩] 0 true = true :=
  ((C10_gate_swappable [⟨0, 1, 2⟩, ⟨3, 1, 2⟩] 0 ⟨0, 1, 2⟩ ⟨3, 1, 2⟩ rfl rfl).2
    (by decide)).mpr (by decide)

/-- C6: canonicalization is invariant under wire relabeling: rewriting every
gate's wires through a permutation `π` of `0..w-1` leaves both the canonical
gate list and the hashed byte stream (hence the 32-byte BLAKE3 hash)
unchanged. -/
theorem C6_canonicalize_relabel_invariant (gates : List ECA57Gate) (w : Nat) (π : List Nat)
    (hlen : π.length = w) (hnodup : π.Nodup) (hval : ∀ x ∈ π, x < w)
    (hw : ∀ g ∈ gates, g.target < w ∧ g.ctrl1 < w ∧ g.ctrl2 < w) :
    canonicalizeEca57 (gates.map (permuteGate π)) w = canonicalizeEca57 gates w := by
  rcases eq_or_ne gates [] with hnil | hnil
  · subst hnil
    rfl
  · have hgetD_inj : ∀ a b, a < w → b < w → π.getD a 0 = π.getD b 0 → a = b := by
      intro a b ha hb hab
      have ha' : a < π.length := by omega
      have hb' : b < π.length := by omega
      rw [List.getD_eq_getElem _ _ ha', List.getD_eq_getElem _ _ hb'] at hab
      have h2 : π.get ⟨a, ha'⟩ = π.get ⟨b, hb'⟩ := by
        simpa [List.get_eq_getElem] using hab
      have h3 := List.nodup_iff_injective_get.mp hnodup h2
      exact congrArg Fin.val h3
    have hseq : ∀ x ∈ gates.flatMap touchedWires, x < w := by
      intro x hx
      obtain ⟨g, hg, hxg⟩ := List.mem_flatMap.mp hx
      obtain ⟨h1, h2, h3⟩ := hw g hg
      simp only [touchedWires, List.mem_cons, List.not_mem_nil, or_false] at hxg
      rcases hxg with rfl | rfl | rfl <;> assumption
    have hnil2 : gates.map (permuteGate π) ≠ [] := by simpa using hnil
    have hflat : (gates.map (permuteGate π)).flatMap touchedWires =
        (gates.flatMap touchedWires).map (fun x => π.getD x 0) := by
      rw [List.flatMap_map, List.map_flatMap]
      rfl
    have hoccs : firstOccs ((gates.flatMap touchedWires).map (fun x => π.getD x 0)) =
        (firstOccs (gates.flatMap touchedWires)).map (fun x => π.getD x 0) := by
      have h := @firstOccsAux_map (fun x => π.getD x 0) []
        (gates.flatMap touchedWires) (fun a b ha hb hab =>
          hgetD_inj a b (hseq a (by simpa using ha)) (hseq b (by simpa using hb)) hab)
      simpa [firstOccs] using h
    have hidx : ∀ x, x < w →
        ((firstOccs (gates.flatMap touchedWires)).map (fun y => π.getD y 0)).indexOf
            (π.getD x 0) =
          (firstOccs (gates.flatMap touchedWires)).indexOf x := by
      intro x hx
      exact indexOf_map (fun a ha hfa =>
        hgetD_inj a x (hseq a (mem_firstOccsAux ha)) hx hfa)
    have hmapeq : (gates.map (permuteGate π)).map (fun g => (⟨
          ((firstOccs (gates.flatMap touchedWires)).map (fun y => π.getD y 0)).indexOf g.target,
          ((firstOccs (gates.flatMap touchedWires)).map (fun y => π.getD y 0)).indexOf g.ctrl1,
          ((firstOccs (gates.flatMap touchedWires)).map (fun y => π.getD y 0)).indexOf g.ctrl2⟩ :
            ECA57Gate)) =
        gates.map (fun g => (⟨(firstOccs (gates.flatMap touchedWires)).indexOf g.target,
          (firstOccs (gates.flatMap touchedWires)).indexOf g.ctrl1,
          (firstOccs (gates.flatMap touchedWires)).indexOf g.ctrl2⟩ : ECA57Gate)) := by
      rw [List.map_map]
      apply List.map_congr_left
      intro g hg
      obtain ⟨h1, h2, h3⟩ := hw g hg
      simp only [Function.comp_apply, permuteGate]
      rw [hidx g.target h1, hidx g.ctrl1 h2, hidx g.ctrl2 h3]
    simp only [canonicalizeEca57, if_neg hnil, if_neg hnil2]
    rw [hflat, hoccs, hmapeq, List.length_map]

/-- C6 witness: relabeling the single gate `(0,1,2)` through the permutation
`[2,0,1]` of the 3 wires leaves the canonical gates and hashed bytes
unchanged. -/
theorem C6_canonicalize_relabel_invariant_witness :
    canonicalizeEca57 [(⟨2, 0, 1⟩ : ECA57Gate)] 3 = canonicalizeEca57 [⟨0, 1, 2⟩] 3 :=
  C6_canonicalize_relabel_invariant [⟨0, 1, 2⟩] 3 [2, 0, 1]
    (by decide) (by decide) (by decide) (by decide)

theorem length_leBytes (k n : Nat) : (leBytes k n).length = k := by
  induction k generalizing n with
  | zero => simp [leBytes]
  | succ k ih => simp [leBytes, ih]

theorem leDecode_leBytes {k n : Nat} (h : n < 256 ^ k) : leDecode (leBytes k n) = n := by
  induction k generalizing n with
  | zero =>
    simp only [pow_zero, Nat.lt_one_iff] at h
    subst h
    rfl
  | succ k ih =>
    simp only [leBytes, leDecode, List.foldr_cons]
    have hdiv : n / 256 < 256 ^ k := by
      rw [Nat.div_lt_iff_lt_mul (by norm_num)]
      calc n < 256 ^ (k + 1) := h
        _ = 256 ^ k * 256 := by ring
    have hd := ih hdiv
    simp only [leDecode] at hd
    rw [hd]
    omega

theorem pack32s_of_length {bs : List Nat} (h : bs.length = 32) : pack32s bs = bs := by
  simp [pack32s, h, List.take_of_length_le]

set_option maxHeartbeats 1000000 in
/-- Template records decode back to themselves whenever packing succeeded,
the two hashes are genuine 32-byte strings, and `origin_template_id` is not
the value `Some 0` (which `to_bytes` conflates with `None`). -/
theorem templateRecord_roundtrip (r : TemplateRecord) (bs : List Nat)
    (hhash : r.canonical_hash.length = 32) (hfam : r.family_hash.length = 32)
    (htid : r.origin_template_id ≠ some 0)
    (henc : r.to_bytes = some bs) :
    TemplateRecord.from_bytes bs = some r := by
  unfold TemplateRecord.to_bytes at henc
  split at henc
  case isFalse => exact absurd henc (by simp)
  case isTrue hcond =>
    obtain ⟨h1, h2, h3, h4, h5, h6, h7⟩ := hcond
    have hbs := (Option.some.injEq _ _).mp henc
    clear henc
    subst hbs
    rw [pack32s_of_length hhash, pack32s_of_length hfam]
    have hlen : 91 ≤ (leBytes 8 r.template_id ++ (leBytes 1 r.basis_id ++
        (leBytes 1 r.width ++ (leBytes 2 r.gate_count ++ (r.canonical_hash ++
        (r.family_hash ++ (leBytes 1 r.origin.val ++
        (leBytes 8 (r.origin_template_id.getD 0) ++ (leBytes 4 r.unroll_ops ++
        (leBytes 2 r.gates_encoded.length ++ r.gates_encoded)))))))))).length := by
      simp [length_leBytes, hhash, hfam]
      omega
    simp only [TemplateRecord.from_bytes]
    rw [if_pos hlen]
    rw [List.take_left' (length_leBytes 8 _), List.drop_left' (length_leBytes 8 _),
      List.take_left' (length_leBytes 1 _), List.drop_left' (length_leBytes 1 _),
      List.take_left' (length_leBytes 1 _), List.drop_left' (length_leBytes 1 _),
      List.take_left' (length_leBytes 2 _), List.drop_left' (length_leBytes 2 _),
      List.take_left' hhash, List.drop_left' hhash,
      List.take_left' hfam, List.drop_left' hfam,
      List.take_left' (length_leBytes 1 _), List.drop_left' (length_leBytes 1 _),
      List.take_left' (length_leBytes 8 _), List.drop_left' (length_leBytes 8 _),
      List.take_left' (length_leBytes 4 _), List.drop_left' (length_leBytes 4 _),
      List.take_left' (length_leBytes 2 _), List.drop_left' (length_leBytes 2 _)]
    have hv : r.origin.val < 256 ^ 1 := by cases r.origin <;> simp [OriginKind.val]
    rw [leDecode_leBytes (by omega : r.template_id < 256 ^ 8),
      leDecode_leBytes (by omega : r.basis_id < 256 ^ 1),
      leDecode_leBytes (by omega : r.width < 256 ^ 1),
      leDecode_leBytes (by omega : r.gate_count < 256 ^ 2),
      leDecode_leBytes hv,
      leDecode_leBytes (by omega : r.origin_template_id.getD 0 < 256 ^ 8),
      leDecode_leBytes (by omega : r.unroll_ops < 256 ^ 4),
      leDecode_leBytes (by omega : r.gates_encoded.length < 256 ^ 2)]
    have hov : OriginKind.ofVal r.origin.val = some r.origin := by
      cases r.origin <;> rfl
    have hotid : (if r.origin_template_id.getD 0 = 0 then none
        else some (r.origin_template_id.getD 0)) = r.origin_template_id := by
      cases h : r.origin_template_id with
      | none => simp
      | some t =>
        have : t ≠ 0 := fun e => htid (by rw [h, e])
        simp [this]
    rw [hov, List.take_length, Option.map_some', hotid]

/-- Witness records decode back to themselves whenever packing succeeded and
the hash is a genuine 32-byte string. -/
theorem witnessRecord_roundtrip (r : WitnessRecord) (bs : List Nat)
    (hhash : r.witness_hash.length = 32)
    (henc : r.to_bytes = some bs) :
    WitnessRecord.from_bytes bs = some r := by
  unfold WitnessRecord.to_bytes at henc
  split at henc
  case isFalse => exact absurd henc (by simp)
  case isTrue hcond =>
    obtain ⟨h1, h2, h3, h4, h5, h6⟩ := hcond
    have hbs := (Option.some.injEq _ _).mp henc
    clear henc
    subst hbs
    rw [pack32s_of_length hhash]
    have hlen : 54 ≤ (leBytes 8 r.witness_id ++ (leBytes 1 r.basis_id ++
        (leBytes 1 r.width ++ (leBytes 2 r.witness_len ++ (r.witness_hash ++
        (leBytes 8 r.source_template_id ++ (leBytes 2 r.gates_encoded.length ++
        r.gates_encoded))))))).length := by
      simp [length_leBytes, hhash]
      omega
    simp only [WitnessRecord.from_bytes]
    rw [if_pos hlen]
    rw [List.take_left' (length_leBytes 8 _), List.drop_left' (length_leBytes 8 _),
      List.take_left' (length_leBytes 1 _), List.drop_left' (length_leBytes 1 _),
      List.take_left' (length_leBytes 1 _), List.drop_left' (length_leBytes 1 _),
      List.take_left' (length_leBytes 2 _), List.drop_left' (length_leBytes 2 _),
      List.take_left' hhash, List.drop_left' hhash,
      List.take_left' (length_leBytes 8 _), List.drop_left' (length_leBytes 8 _),
      List.take_left' (length_leBytes 2 _), List.drop_left' (length_leBytes 2 _)]
    rw [leDecode_leBytes (by omega : r.witness_id < 256 ^ 8),
      leDecode_leBytes (by omega : r.basis_id < 256 ^ 1),
      leDecode_leBytes (by omega : r.width < 256 ^ 1),
      leDecode_leBytes (by omega : r.witness_len < 256 ^ 2),
      leDecode_leBytes (by omega : r.source_template_id < 256 ^ 8),
      leDecode_leBytes (by omega : r.gates_encoded.length < 256 ^ 2)]
    rw [List.take_length]

/-- C7 counterexample: a template record whose `origin_template_id` is `0`
serializes and deserializes to a different record (the id comes back as
`None`, since `to_bytes` writes `origin_template_id or 0`), refuting the
round-trip for "any u64" values. -/
theorem C7_counterexample :
    (tRecZero.to_bytes.bind TemplateRecord.from_bytes) =
      some { tRecZero with origin_template_id := none } ∧
    ({ tRecZero with origin_template_id := none } : TemplateRecord) ≠ tRecZero := by
  decide

/-- C7 (amended): `from_bytes (to_bytes r) = r` for both record types on
every record that `struct.pack` accepts (all integer fields in range, hashes
exactly 32 bytes, `gates_encoded` shorter than 2^16 bytes), with the extra
proviso that `origin_template_id` is not the value `0`, which `to_bytes`
conflates with `None`. -/
theorem C7_record_roundtrip_amended :
    (∀ (r : TemplateRecord) (bs : List Nat), r.canonical_hash.length = 32 →
      r.family_hash.length = 32 → r.origin_template_id ≠ some 0 →
      r.to_bytes = some bs → TemplateRecord.from_bytes bs = some r) ∧
    (∀ (r : WitnessRecord) (bs : List Nat), r.witness_hash.length = 32 →
      r.to_bytes = some bs → WitnessRecord.from_bytes bs = some r) :=
  ⟨templateRecord_roundtrip, witnessRecord_roundtrip⟩

/-- C7 witness: the amended round-trip evaluated on concrete template and
witness records. -/
theorem C7_record_roundtrip_amended_witness :
    TemplateRecord.from_bytes tBytesSample = some tRecSample ∧
    WitnessRecord.from_bytes wBytesSample = some wRecSample :=
  ⟨C7_record_roundtrip_amended.1 tRecSample tBytesSample (by decide) (by decide)
      (by decide) (by decide),
    C7_record_roundtrip_amended.2 wRecSample wBytesSample (by decide) (by decide)⟩

theorem litVal_neg (a : Nat → Bool) {l : Int} (h : l ≠ 0) :
    litVal a (-l) = !(litVal a l) := by
  by_cases hp : 0 < l
  · have h2 : ¬ (0:Int) < -l := by omega
    unfold litVal
    rw [if_pos hp, if_neg h2, Int.natAbs_neg]
  · have hl : l < 0 := by omega
    have h2 : (0:Int) < -l := by omega
    unfold litVal
    rw [if_neg hp, if_pos h2, Int.natAbs_neg, Bool.not_not]

theorem litVal_signedLit (a : Nat → Bool) {v : Nat} (hv : 0 < v) (p : Bool) :
    (litVal a (signedLit p v) = true) ↔ a v = p := by
  cases p
  case false =>
    have h1 : ¬ (0:Int) < -(v:Int) := by omega
    simp [signedLit, litVal, h1, Int.natAbs_neg]
  case true =>
    have h1 : (0:Int) < (v:Int) := by omega
    simp [signedLit, litVal, h1]

theorem signedLit_ne_zero {v : Nat} (hv : 0 < v) (p : Bool) : signedLit p v ≠ 0 := by
  cases p <;> simp [signedLit] <;> omega

theorem tVar_pos {width g w : Nat} : 0 < tVar width g w := by
  unfold tVar; omega

theorem c1Var_pos {width gates g w : Nat} : 0 < c1Var width gates g w := by
  unfold c1Var; omega

theorem c2Var_pos {width gates g w : Nat} : 0 < c2Var width gates g w := by
  unfold c2Var; omega

theorem satClause_eq_false_iff (a : Nat → Bool) (c : List Int) :
    satClause a c = false ↔ ∀ l ∈ c, litVal a l = false := by
  simp [satClause]

theorem exclusion_mem_char (width gates : Nat) (c : List ECA57Gate) (l : Int) :
    l ∈ exclusionList width gates c ↔
      ∃ gi ∈ c.enum, ∃ w, w < width ∧
        (l = signedLit (decide (w = gi.2.target)) (tVar width gi.1 w) ∨
         l = signedLit (decide (w = gi.2.ctrl1)) (c1Var width gates gi.1 w) ∨
         l = signedLit (decide (w = gi.2.ctrl2)) (c2Var width gates gi.1 w)) := by
  simp [exclusionList, roleLits, List.mem_flatMap, List.mem_range]

/-- C3 counterexample: an existing store whose recorded `schema_version` is 2
(differing from the advertised `SCHEMA_VERSION = 1`) is opened successfully
with its meta unchanged — `TemplateDBEnv.__init__` performs no rejection. -/
theorem C3_counterexample :
    templateDBEnvOpen [("schema_version", leBytes 4 2)] =
      Except.ok [("schema_version", leBytes 4 2)] ∧
    leBytes 4 2 ≠ leBytes 4 SCHEMA_VERSION := by
  constructor
  · rfl
  · decide

/-- C3 (amended): opening an existing template store never compares the
recorded versions against the code's `SCHEMA_VERSION` and
`CANONICALIZATION_VERSION`: whenever `schema_version` is present (whatever
its value), `TemplateDBEnv.__init__` leaves the meta database untouched and
opens the store without any error. -/
theorem C3_open_no_version_check_amended (meta : List (String × List Nat))
    (v : List Nat) (h : getAssoc meta "schema_version" = some v) :
    templateDBEnvOpen meta = Except.ok meta := by
  simp [templateDBEnvOpen, initMeta, h]

/-- C3 witness: the amended theorem applied to a store recording version 2. -/
theorem C3_open_no_version_check_amended_witness :
    templateDBEnvOpen [("schema_version", leBytes 4 2)] =
      Except.ok [("schema_version", leBytes 4 2)] :=
  C3_open_no_version_check_amended [("schema_version", leBytes 4 2)]
    (leBytes 4 2) rfl

/-- C9: `exclude_solution(c)` appends exactly one clause — the negation of
the full gate-role assignment of `c` — leaving every earlier clause
unchanged, and that clause is falsified precisely by the assignments that
give every gate position the target, ctrl1 and ctrl2 wires of `c`. -/
theorem C9_exclude_solution (cnf : List (List Int)) (width gates : Nat)
    (c : List ECA57Gate) :
    excludeSolution cnf width gates c =
      cnf ++ [(exclusionList width gates c).map (fun l => -l)] ∧
    ∀ a : Nat → Bool,
      satClause a ((exclusionList width gates c).map (fun l => -l)) = false ↔
        ∀ gi ∈ c.enum, ∀ w, w < width →
          a (tVar width gi.1 w) = decide (w = gi.2.target) ∧
          a (c1Var width gates gi.1 w) = decide (w = gi.2.ctrl1) ∧
          a (c2Var width gates gi.1 w) = decide (w = gi.2.ctrl2) := by
  refine ⟨rfl, fun a => ?_⟩
  rw [satClause_eq_false_iff]
  constructor
  · intro h gi hgi w hw
    refine ⟨?_, ?_, ?_⟩
    · have hmem : signedLit (decide (w = gi.2.target)) (tVar width gi.1 w) ∈
          exclusionList width gates c :=
        (exclusion_mem_char width gates c _).mpr ⟨gi, hgi, w, hw, Or.inl rfl⟩
      have hf := h _ (List.mem_map.mpr ⟨_, hmem, rfl⟩)
      rw [litVal_neg a (signedLit_ne_zero tVar_pos _)] at hf
      have ht : litVal a (signedLit (decide (w = gi.2.target)) (tVar width gi.1 w)) = true := by
        simpa using hf
      exact (litVal_signedLit a tVar_pos _).mp ht
    · have hmem : signedLit (decide (w = gi.2.ctrl1)) (c1Var width gates gi.1 w) ∈
          exclusionList width gates c :=
        (exclusion_mem_char width gates c _).mpr ⟨gi, hgi, w, hw, Or.inr (Or.inl rfl)⟩
      have hf := h _ (List.mem_map.mpr ⟨_, hmem, rfl⟩)
      rw [litVal_neg a (signedLit_ne_zero c1Var_pos _)] at hf
      have ht : litVal a (signedLit (decide (w = gi.2.ctrl1)) (c1Var width gates gi.1 w)) = true := by
        simpa using hf
      exact (litVal_signedLit a c1Var_pos _).mp ht
    · have hmem : signedLit (decide (w = gi.2.ctrl2)) (c2Var width gates gi.1 w) ∈
          exclusionList width gates c :=
        (exclusion_mem_char width gates c _).mpr ⟨gi, hgi, w, hw, Or.inr (Or.inr rfl)⟩
      have hf := h _ (List.mem_map.mpr ⟨_, hmem, rfl⟩)
      rw [litVal_neg a (signedLit_ne_zero c2Var_pos _)] at hf
      have ht : litVal a (signedLit (decide (w = gi.2.ctrl2)) (c2Var width gates gi.1 w)) = true := by
        simpa using hf
      exact (litVal_signedLit a c2Var_pos _).mp ht
  · intro h l hl
    obtain ⟨l0, hl0, rfl⟩ := List.mem_map.mp hl
    obtain ⟨gi, hgi, w, hw, hcase⟩ := (exclusion_mem_char width gates c _).mp hl0
    obtain ⟨h1, h2, h3⟩ := h gi hgi w hw
    rcases hcase with rfl | rfl | rfl
    · rw [litVal_neg a (signedLit_ne_zero tVar_pos _)]
      simp [(litVal_signedLit a tVar_pos _).mpr h1]
    · rw [litVal_neg a (signedLit_ne_zero c1Var_pos _)]
      simp [(litVal_signedLit a c1Var_pos _).mpr h2]
    · rw [litVal_neg a (signedLit_ne_zero c2Var_pos _)]
      simp [(litVal_signedLit a c2Var_pos _).mpr h3]

/-- C9 witness: the exclusion clause for the single gate `(0,1,2)` at width 3
is falsified by the assignment that sets exactly the matching role
variables. -/
theorem C9_exclude_solution_witness :
    satClause (fun v => v == 1 || v == 5 || v == 9)
      ((exclusionList 3 1 [⟨0, 1, 2⟩]).map (fun l => -l)) = false :=
  ((C9_exclude_solution [] 3 1 [⟨0, 1, 2⟩]).2
    (fun v => v == 1 || v == 5 || v == 9)).mpr (by decide)

theorem satCNF_eq_true_iff (a : Nat → Bool) (cs : List (List Int)) :
    satCNF a cs = true ↔ ∀ cl ∈ cs, satClause a cl = true := by
  simp [satCNF]

theorem satCNF_append (a : Nat → Bool) (u v : List (List Int)) :
    satCNF a (u ++ v) = (satCNF a u && satCNF a v) := by
  simp [satCNF, List.all_append]

theorem litVal_congr {a a' : Nat → Bool} {m : Nat} {l : Int} (hb : l.natAbs < m)
    (hag : ∀ v, v < m → a' v = a v) : litVal a' l = litVal a l := by
  unfold litVal
  rw [hag _ hb]

theorem satClause_congr {a a' : Nat → Bool} {m : Nat} (cl : List Int)
    (hb : ∀ l ∈ cl, l.natAbs < m) (hag : ∀ v, v < m → a' v = a v) :
    satClause a' cl = satClause a cl := by
  unfold satClause
  induction cl with
  | nil => rfl
  | cons l rest ih =>
    simp only [List.any_cons]
    rw [litVal_congr (hb l (List.mem_cons_self _ _)) hag,
      ih (fun x hx => hb x (List.mem_cons_of_mem _ hx))]

theorem satCNF_congr {a a' : Nat → Bool} {m : Nat} (cs : List (List Int))
    (hb : ∀ cl ∈ cs, ∀ l ∈ cl, l.natAbs < m) (hag : ∀ v, v < m → a' v = a v) :
    satCNF a' cs = satCNF a cs := by
  unfold satCNF
  induction cs with
  | nil => rfl
  | cons cl rest ih =>
    simp only [List.all_cons]
    rw [satClause_congr cl (hb cl (List.mem_cons_self _ _)) hag,
      ih (fun x hx => hb x (List.mem_cons_of_mem _ hx))]

theorem countP_litVal_congr {a a' : Nat → Bool} {m : Nat} (L : List Int)
    (hb : ∀ l ∈ L, l.natAbs < m) (hag : ∀ v, v < m → a' v = a v) :
    L.countP (litVal a') = L.countP (litVal a) := by
  apply List.countP_congr
  intro l hl
  rw [litVal_congr (hb l hl) hag]

theorem mem_signPatterns {n : Nat} {p : List Int} :
    p ∈ signPatterns n ↔ p.length = n ∧ ∀ x ∈ p, x = 1 ∨ x = -1 := by
  induction n generalizing p with
  | zero =>
    constructor
    · intro h
      simp only [signPatterns, List.replicate_zero, List.sections] at h
      simp only [List.mem_singleton] at h
      subst h
      simp
    · rintro ⟨hl, _⟩
      rw [List.length_eq_zero] at hl
      subst hl
      simp [signPatterns, List.sections]
  | succ n ih =>
    constructor
    · intro h
      rw [signPatterns, List.replicate_succ, List.mem_sections,
        List.forall₂_cons_right_iff] at h
      obtain ⟨x, p', hx, hforall, rfl⟩ := h
      have hp' : p' ∈ signPatterns n := by
        rw [signPatterns, List.mem_sections]
        exact hforall
      obtain ⟨hlen, helem⟩ := ih.mp hp'
      refine ⟨by simp [hlen], ?_⟩
      intro y hy
      rcases List.mem_cons.mp hy with rfl | hy'
      · simpa using hx
      · exact helem y hy'
    · rintro ⟨hlen, helem⟩
      cases p with
      | nil => simp at hlen
      | cons x p' =>
        rw [signPatterns, List.replicate_succ, List.mem_sections,
          List.forall₂_cons_right_iff]
        refine ⟨x, p', by simpa using helem x (List.mem_cons_self _ _), ?_, rfl⟩
        have hp' : p' ∈ signPatterns n :=
          ih.mpr ⟨by simpa using hlen, fun y hy => helem y (List.mem_cons_of_mem _ hy)⟩
        rw [signPatterns, List.mem_sections] at hp'
        exact hp'

theorem sum_signPattern {p : List Int} (h : ∀ x ∈ p, x = 1 ∨ x = -1) :
    p.sum = (p.length : Int) - 2 * (p.count (-1) : Int) := by
  induction p with
  | nil => simp
  | cons x rest ih =>
    have hrest := ih (fun y hy => h y (List.mem_cons_of_mem _ hy))
    rcases h x (List.mem_cons_self _ _) with rfl | rfl
    · rw [List.sum_cons, hrest, List.count_cons, List.length_cons]
      simp
      push_cast
      ring
    · rw [List.sum_cons, hrest, List.count_cons, List.length_cons]
      simp
      push_cast
      ring

theorem filter_cond_iff {p : List Int} (h : ∀ x ∈ p, x = 1 ∨ x = -1) :
    (((p.sum - (p.length : Int) + 2) % 4 == 0) = true) ↔ p.count (-1) % 2 = 1 := by
  rw [sum_signPattern h]
  simp only [beq_iff_eq]
  omega

theorem mem_zipWith {α β γ : Type} {f : α → β → γ} {c : γ} :
    ∀ {as : List α} {bs : List β}, c ∈ List.zipWith f as bs →
      ∃ x ∈ as, ∃ y ∈ bs, c = f x y := by
  intro as
  induction as with
  | nil => intro bs h; simp at h
  | cons x as ih =>
    intro bs h
    cases bs with
    | nil => simp at h
    | cons y bs =>
      simp only [List.zipWith_cons_cons, List.mem_cons] at h
      rcases h with rfl | h
      · exact ⟨x, List.mem_cons_self _ _, y, List.mem_cons_self _ _, rfl⟩
      · obtain ⟨x', hx', y', hy', rfl⟩ := ih h
        exact ⟨x', List.mem_cons_of_mem _ hx', y', List.mem_cons_of_mem _ hy', rfl⟩

theorem satClause_cons (a : Nat → Bool) (x : Int) (cl : List Int) :
    satClause a (x :: cl) = (litVal a x || satClause a cl) := rfl

theorem clause_falsified_pattern (a : Nat → Bool) :
    ∀ {p lits : List Int}, p.length = lits.length →
      (∀ x ∈ p, x = 1 ∨ x = -1) → (∀ l ∈ lits, l ≠ 0) →
      ((satClause a (List.zipWith (fun one l => one * l) p lits) = false) ↔
        p = lits.map (fun l => if litVal a l then -1 else 1)) := by
  intro p
  induction p with
  | nil =>
    intro lits hlen _ _
    have : lits = [] := List.length_eq_zero.mp hlen.symm
    subst this
    simp [satClause]
  | cons one p' ih =>
    intro lits hlen hpm hnz
    cases lits with
    | nil => simp at hlen
    | cons l ls =>
      have hone := hpm one (List.mem_cons_self _ _)
      have hl0 := hnz l (List.mem_cons_self _ _)
      have hih := ih (show p'.length = ls.length by simpa using hlen)
        (fun x hx => hpm x (List.mem_cons_of_mem _ hx))
        (fun x hx => hnz x (List.mem_cons_of_mem _ hx))
      rw [List.zipWith_cons_cons, satClause_cons, Bool.or_eq_false_iff, List.map_cons]
      constructor
      · rintro ⟨hhead, htail⟩
        have htl := hih.mp htail
        rcases hone with rfl | rfl
        · rw [one_mul] at hhead
          rw [List.cons_eq_cons]
          exact ⟨by simp [hhead], htl⟩
        · rw [neg_one_mul, litVal_neg a hl0] at hhead
          have hb : litVal a l = true := by simpa using hhead
          rw [List.cons_eq_cons]
          exact ⟨by simp [hb], htl⟩
      · intro heq
        obtain ⟨h1, h2⟩ := List.cons_eq_cons.mp heq
        refine ⟨?_, hih.mpr h2⟩
        by_cases hb : litVal a l = true
        · rw [if_pos hb] at h1
          subst h1
          rw [neg_one_mul, litVal_neg a hl0, hb]
          rfl
        · rw [Bool.not_eq_true] at hb
          rw [hb] at h1
          simp only [Bool.false_eq_true, if_false] at h1
          subst h1
          rw [one_mul, hb]

theorem pattern_map_mem (a : Nat → Bool) (lits : List Int) :
    ∀ x ∈ lits.map (fun l => if litVal a l then (-1 : Int) else 1), x = 1 ∨ x = -1 := by
  intro x hx
  obtain ⟨l, _, rfl⟩ := List.mem_map.mp hx
  by_cases hb : litVal a l = true <;> simp [hb]

theorem count_neg_map (a : Nat → Bool) (lits : List Int) :
    (lits.map (fun l => if litVal a l then (-1 : Int) else 1)).count (-1) =
      lits.countP (litVal a) := by
  induction lits with
  | nil => rfl
  | cons l rest ih =>
    simp only [List.map_cons, List.count_cons, List.countP_cons, ih]
    by_cases hb : litVal a l = true
    · simp [hb]
    · rw [Bool.not_eq_true] at hb
      simp [hb]

/-- The clauses emitted for `|L| ≤ 3` are satisfied exactly by assignments
making an even number of the literals true (the code keeps the sign patterns
with an odd number of negations, so odd-true assignments are excluded). -/
theorem xorDirect_sat (lits : List Int) (hnz : ∀ l ∈ lits, l ≠ 0) (a : Nat → Bool) :
    (satCNF a (xorDirect lits) = true ↔ lits.countP (litVal a) % 2 = 0) := by
  constructor
  · intro h
    by_contra hodd
    have hodd' : lits.countP (litVal a) % 2 = 1 := by omega
    have hmemsp : (lits.map (fun l => if litVal a l then (-1 : Int) else 1)) ∈
        signPatterns lits.length :=
      mem_signPatterns.mpr ⟨by simp, pattern_map_mem a lits⟩
    have hlenp : (lits.map (fun l => if litVal a l then (-1 : Int) else 1)).length =
        lits.length := by simp
    have hfilter : (((lits.map (fun l => if litVal a l then (-1 : Int) else 1)).sum -
        (lits.length : Int) + 2) % 4 == 0) = true := by
      rw [show ((lits.length : Int)) = (((lits.map (fun l =>
        if litVal a l then (-1 : Int) else 1)).length : Int)) by rw [hlenp]]
      rw [filter_cond_iff (pattern_map_mem a lits), count_neg_map]
      exact hodd'
    have hclmem : List.zipWith (fun one l => one * l)
        (lits.map (fun l => if litVal a l then (-1 : Int) else 1)) lits ∈
          xorDirect lits := by
      unfold xorDirect
      exact List.mem_map.mpr ⟨_, List.mem_filter.mpr ⟨hmemsp, hfilter⟩, rfl⟩
    have hsat := (satCNF_eq_true_iff a _).mp h _ hclmem
    have hfals := (clause_falsified_pattern a hlenp (pattern_map_mem a lits) hnz).mpr rfl
    rw [hfals] at hsat
    simp at hsat
  · intro heven
    rw [satCNF_eq_true_iff]
    intro cl hcl
    unfold xorDirect at hcl
    obtain ⟨p, hpfilter, rfl⟩ := List.mem_map.mp hcl
    obtain ⟨hpmem, hcond⟩ := List.mem_filter.mp hpfilter
    obtain ⟨hplen, hpm⟩ := mem_signPatterns.mp hpmem
    by_contra hfalse
    rw [Bool.not_eq_true] at hfalse
    have hpeq := (clause_falsified_pattern a hplen hpm hnz).mp hfalse
    have hcnt : p.count (-1) % 2 = 1 := by
      have hiff := filter_cond_iff hpm
      rw [hplen] at hiff
      exact hiff.mp hcond
    rw [hpeq, count_neg_map] at hcnt
    omega

theorem xorAux_small {fuel : Nat} {lits : List Int} {next : Nat} (h : lits.length ≤ 3) :
    xorClausesAux fuel lits next = (xorDirect lits, next) := by
  cases fuel <;> simp [xorClausesAux, h]

theorem xorAux_step {fuel : Nat} {lits : List Int} {next : Nat} (h : ¬ lits.length ≤ 3) :
    xorClausesAux (fuel + 1) lits next =
      ((xorClausesAux fuel ((next : Int) :: lits.take 2) (next + 1)).1 ++
        (xorClausesAux fuel ((next : Int) :: lits.drop 2)
          (xorClausesAux fuel ((next : Int) :: lits.take 2) (next + 1)).2).1,
       (xorClausesAux fuel ((next : Int) :: lits.drop 2)
          (xorClausesAux fuel ((next : Int) :: lits.take 2) (next + 1)).2).2) := by
  conv_lhs => rw [xorClausesAux]
  simp [h]

theorem xorDirect_vars {lits : List Int} {m : Nat}
    (hb : ∀ l ∈ lits, l ≠ 0 ∧ l.natAbs < m) :
    ∀ cl ∈ xorDirect lits, ∀ l ∈ cl, l ≠ 0 ∧ l.natAbs < m := by
  intro cl hcl l hl
  unfold xorDirect at hcl
  obtain ⟨p, hp, rfl⟩ := List.mem_map.mp hcl
  obtain ⟨hpmem, _⟩ := List.mem_filter.mp hp
  obtain ⟨_, hpm⟩ := mem_signPatterns.mp hpmem
  obtain ⟨x, hx, y, hy, rfl⟩ := mem_zipWith hl
  obtain ⟨hy0, hyb⟩ := hb y hy
  rcases hpm x hx with rfl | rfl
  · rw [one_mul]
    exact ⟨hy0, hyb⟩
  · rw [neg_one_mul]
    exact ⟨by simpa using hy0, by simpa [Int.natAbs_neg] using hyb⟩

theorem litVal_natCast (a : Nat → Bool) {n : Nat} (h : 0 < n) :
    litVal a ((n : Nat) : Int) = a n := by
  unfold litVal
  rw [if_pos (by exact_mod_cast h)]
  simp

/-- Behaviour of `CNF.xor` when the literal list is short: the direct clause
set, no fresh variables, and even-parity semantics. -/
theorem xorSmall_spec (fuel : Nat) (lits : List Int) (next : Nat)
    (hsmall : lits.length ≤ 3)
    (hv : ∀ l ∈ lits, l ≠ 0 ∧ l.natAbs < next) :
    next ≤ (xorClausesAux fuel lits next).2 ∧
    (∀ cl ∈ (xorClausesAux fuel lits next).1, ∀ l ∈ cl,
      l ≠ 0 ∧ l.natAbs < (xorClausesAux fuel lits next).2) ∧
    ∀ a : Nat → Bool,
      ((∃ a' : Nat → Bool, (∀ v, v < next → a' v = a v) ∧
          satCNF a' (xorClausesAux fuel lits next).1 = true) ↔
        lits.countP (litVal a) % 2 = 0) := by
  rw [xorAux_small hsmall]
  refine ⟨Nat.le_refl _, xorDirect_vars hv, ?_⟩
  intro a
  constructor
  · rintro ⟨a', hag, hsat⟩
    have hc := satCNF_congr (m := next) (xorDirect lits)
      (fun cl hcl l hl => ((xorDirect_vars hv) cl hcl l hl).2) hag
    rw [hc] at hsat
    exact (xorDirect_sat lits (fun l hl => (hv l hl).1) a).mp hsat
  · intro hpar
    exact ⟨a, fun _ _ => rfl, (xorDirect_sat lits (fun l hl => (hv l hl).1) a).mpr hpar⟩

/-- Soundness of `CNF.xor` for any fuel at least `length - 3`: the emitted
clauses use only known or freshly allocated variables, the fresh counter
advances monotonically, and the assignments of the original variables that
extend to satisfy the clauses are exactly those making an even number of the
literals true. -/
theorem xorAux_spec (fuel : Nat) : ∀ (lits : List Int) (next : Nat),
    lits.length ≤ fuel + 3 →
    (∀ l ∈ lits, l ≠ 0 ∧ l.natAbs < next) →
    next ≤ (xorClausesAux fuel lits next).2 ∧
    (∀ cl ∈ (xorClausesAux fuel lits next).1, ∀ l ∈ cl,
      l ≠ 0 ∧ l.natAbs < (xorClausesAux fuel lits next).2) ∧
    ∀ a : Nat → Bool,
      ((∃ a' : Nat → Bool, (∀ v, v < next → a' v = a v) ∧
          satCNF a' (xorClausesAux fuel lits next).1 = true) ↔
        lits.countP (litVal a) % 2 = 0) := by
  induction fuel with
  | zero =>
    intro lits next hlen hv
    exact xorSmall_spec 0 lits next (by omega) hv
  | succ fuel ih =>
    intro lits next hlen hv
    by_cases hsmall : lits.length ≤ 3
    · exact xorSmall_spec (fuel + 1) lits next hsmall hv
    · have h4 : 4 ≤ lits.length := by omega
      have hnextpos : 0 < next := by
        have hne : lits ≠ [] := by
          intro h
          rw [h] at h4
          simp at h4
        obtain ⟨l, hl⟩ := List.exists_mem_of_ne_nil lits hne
        have h1 := hv l hl
        have h2 : 0 < l.natAbs := Int.natAbs_pos.mpr h1.1
        omega
      have hauxne : ((next : Int)) ≠ 0 := by
        exact_mod_cast hnextpos.ne'
      have hv1 : ∀ l ∈ (next : Int) :: lits.take 2, l ≠ 0 ∧ l.natAbs < next + 1 := by
        intro l hl
        rcases List.mem_cons.mp hl with rfl | hl'
        · exact ⟨hauxne, by simp⟩
        · have := hv l (List.take_subset _ _ hl')
          exact ⟨this.1, by omega⟩
      have hv2 : ∀ l ∈ (next : Int) :: lits.drop 2, l ≠ 0 ∧ l.natAbs < next + 1 := by
        intro l hl
        rcases List.mem_cons.mp hl with rfl | hl'
        · exact ⟨hauxne, by simp⟩
        · have := hv l (List.drop_subset _ _ hl')
          exact ⟨this.1, by omega⟩
      have hlen1 : ((next : Int) :: lits.take 2).length = 3 := by
        simp [List.length_take]
        omega
      have hlen2 : ((next : Int) :: lits.drop 2).length = lits.length - 1 := by
        simp [List.length_drop]
        omega
      have hr1 : xorClausesAux fuel ((next : Int) :: lits.take 2) (next + 1) =
          (xorDirect ((next : Int) :: lits.take 2), next + 1) :=
        xorAux_small (by omega)
      have hr1a : (xorClausesAux fuel ((next : Int) :: lits.take 2) (next + 1)).1 =
          xorDirect ((next : Int) :: lits.take 2) := by rw [hr1]
      have hr1b : (xorClausesAux fuel ((next : Int) :: lits.take 2) (next + 1)).2 =
          next + 1 := by rw [hr1]
      obtain ⟨hm2, hb2, hs2⟩ := ih ((next : Int) :: lits.drop 2) (next + 1)
        (by omega) hv2
      rw [xorAux_step hsmall, hr1a, hr1b]
      have hsplit : ∀ b : Nat → Bool, lits.countP (litVal b) =
          (lits.take 2).countP (litVal b) + (lits.drop 2).countP (litVal b) := by
        intro b
        conv_lhs => rw [← List.take_append_drop 2 lits]
        rw [List.countP_append]
      refine ⟨by omega, ?_, ?_⟩
      · intro cl hcl l hl
        rcases List.mem_append.mp hcl with hcl' | hcl'
        · have := (xorDirect_vars hv1) cl hcl' l hl
          exact ⟨this.1, by omega⟩
        · exact hb2 cl hcl' l hl
      · intro a
        constructor
        · rintro ⟨a', hag, hsat⟩
          rw [satCNF_append, Bool.and_eq_true] at hsat
          obtain ⟨hsA, hsB⟩ := hsat
          have hparity1 : ((next : Int) :: lits.take 2).countP (litVal a') % 2 = 0 :=
            (xorDirect_sat _ (fun l hl => (hv1 l hl).1) a').mp hsA
          have hparity2 : ((next : Int) :: lits.drop 2).countP (litVal a') % 2 = 0 :=
            (hs2 a').mp ⟨a', fun _ _ => rfl, hsB⟩
          have htake : (lits.take 2).countP (litVal a') = (lits.take 2).countP (litVal a) :=
            countP_litVal_congr (m := next) _
              (fun l hl => (hv l (List.take_subset _ _ hl)).2) hag
          have hdrop : (lits.drop 2).countP (litVal a') = (lits.drop 2).countP (litVal a) :=
            countP_litVal_congr (m := next) _
              (fun l hl => (hv l (List.drop_subset _ _ hl)).2) hag
          rw [List.countP_cons, litVal_natCast a' hnextpos, htake] at hparity1
          rw [List.countP_cons, litVal_natCast a' hnextpos, hdrop] at hparity2
          rw [hsplit a]
          cases hN : a' next <;> rw [hN] at hparity1 hparity2 <;>
            simp at hparity1 hparity2 <;> omega
        · intro hpar
          rw [hsplit a] at hpar
          refine ?_
          have hparN := hpar
          set bAux : Bool := decide ((lits.take 2).countP (litVal a) % 2 = 1) with hbdef
          set a1 : Nat → Bool := fun v => if v = next then bAux else a v with ha1def
          have ha1below : ∀ v, v < next → a1 v = a v := by
            intro v hvlt
            rw [ha1def]
            simp only
            rw [if_neg (by omega)]
          have ha1next : a1 next = bAux := by
            rw [ha1def]
            simp
          have hdrop1 : (lits.drop 2).countP (litVal a1) = (lits.drop 2).countP (litVal a) :=
            countP_litVal_congr (m := next) _
              (fun l hl => (hv l (List.drop_subset _ _ hl)).2) ha1below
          have htake1 : (lits.take 2).countP (litVal a1) = (lits.take 2).countP (litVal a) :=
            countP_litVal_congr (m := next) _
              (fun l hl => (hv l (List.take_subset _ _ hl)).2) ha1below
          have hparl2 : ((next : Int) :: lits.drop 2).countP (litVal a1) % 2 = 0 := by
            rw [List.countP_cons, litVal_natCast a1 hnextpos, ha1next, hdrop1]
            by_cases hk1 : (lits.take 2).countP (litVal a) % 2 = 1 <;>
              simp [hbdef, hk1] <;> omega
          obtain ⟨a2, hag2, hsat2⟩ := (hs2 a1).mpr hparl2
          have hs1sat : satCNF a2 (xorDirect ((next : Int) :: lits.take 2)) = true := by
            have hcongr : satCNF a2 (xorDirect ((next : Int) :: lits.take 2)) =
                satCNF a1 (xorDirect ((next : Int) :: lits.take 2)) :=
              satCNF_congr (m := next + 1) _
                (fun cl hcl l hl => ((xorDirect_vars hv1) cl hcl l hl).2) hag2
            rw [hcongr]
            apply (xorDirect_sat _ (fun l hl => (hv1 l hl).1) a1).mpr
            rw [List.countP_cons, litVal_natCast a1 hnextpos, ha1next, htake1]
            by_cases hk1 : (lits.take 2).countP (litVal a) % 2 = 1 <;>
              simp [hbdef, hk1] <;> omega
          refine ⟨a2, ?_, ?_⟩
          · intro v hvlt
            rw [hag2 v (by omega), ha1below v hvlt]
          · rw [satCNF_append, hs1sat, hsat2]
            rfl

/-- C1 counterexample: for `L = [x1, x2]` the emitted clauses are
`{¬x1 ∨ x2, x1 ∨ ¬x2}`; the assignment making exactly one literal true (an
odd number) falsifies them, while the all-true assignment (an even number)
satisfies them — the opposite of the claimed odd-parity semantics.  No
auxiliary variable is involved for `|L| ≤ 3`, so restriction plays no
role. -/
theorem C1_counterexample :
    (xorClauses [1, 2] 3).1 = [[-1, 2], [1, -2]] ∧
    satCNF (fun v => v == 1) (xorClauses [1, 2] 3).1 = false ∧
    ([1, 2] : List Int).countP (litVal (fun v => v == 1)) = 1 ∧
    satCNF (fun _ => true) (xorClauses [1, 2] 3).1 = true ∧
    ([1, 2] : List Int).countP (litVal (fun _ => true)) = 2 := by
  decide

/-- C1 (amended): `CNF.xor(L)` appends clauses whose satisfying assignments,
restricted to the variables known before the call (fresh auxiliaries free),
are exactly those making an EVEN number of the literals of `L` true
(`⊕L = false`); the recursive split through a fresh auxiliary literal for
`|L| > 3` preserves this semantics. -/
theorem C1_xor_even_parity_amended (st : CNFBuilder) (lits : List Int)
    (hlen : 2 ≤ lits.length)
    (hv : ∀ l ∈ lits, l ≠ 0 ∧ l.natAbs < st.next) (a : Nat → Bool) :
    (cnfXor st lits).clauses = st.clauses ++ (xorClauses lits st.next).1 ∧
    ((∃ a' : Nat → Bool, (∀ v, v < st.next → a' v = a v) ∧
        satCNF a' (xorClauses lits st.next).1 = true) ↔
      lits.countP (litVal a) % 2 = 0) :=
  ⟨rfl, (xorAux_spec lits.length lits st.next (by omega) hv).2.2 a⟩

/-- C1 witness: the amended theorem instantiated at the builder with three
variables, the literal list `[1, 2]` and the all-true assignment. -/
theorem C1_xor_even_parity_amended_witness :
    (cnfXor ⟨[], 3⟩ [1, 2]).clauses = [] ++ (xorClauses [1, 2] 3).1 ∧
    ((∃ a' : Nat → Bool, (∀ v, v < 3 → a' v = (fun _ => true) v) ∧
        satCNF a' (xorClauses [1, 2] 3).1 = true) ↔
      ([1, 2] : List Int).countP (litVal (fun _ => true)) % 2 = 0) :=
  C1_xor_even_parity_amended ⟨[], 3⟩ [1, 2] (by decide) (by decide) (fun _ => true)

theorem mem_foldl_dedup {κ : Type} [DecidableEq κ] {x : κ} :
    ∀ (l acc : List κ),
      (x ∈ l.foldl (fun acc k => if k ∈ acc then acc else acc ++ [k]) acc ↔
        x ∈ acc ∨ x ∈ l) := by
  intro l
  induction l with
  | nil => intro acc; simp
  | cons k rest ih =>
    intro acc
    simp only [List.foldl_cons]
    rw [ih]
    by_cases hk : k ∈ acc
    · rw [if_pos hk]
      constructor
      · rintro (h | h)
        · exact Or.inl h
        · exact Or.inr (List.mem_cons_of_mem _ h)
      · rintro (h | h)
        · exact Or.inl h
        · rcases List.mem_cons.mp h with rfl | h'
          · exact Or.inl hk
          · exact Or.inr h'
    · rw [if_neg hk]
      constructor
      · rintro (h | h)
        · rcases List.mem_append.mp h with h' | h'
          · exact Or.inl h'
          · exact Or.inr (List.mem_cons.mpr (Or.inl (by simpa using h')))
        · exact Or.inr (List.mem_cons_of_mem _ h)
      · rintro (h | h)
        · exact Or.inl (List.mem_append.mpr (Or.inl h))
        · rcases List.mem_cons.mp h with rfl | h'
          · exact Or.inl (List.mem_append.mpr (Or.inr (by simp)))
          · exact Or.inr h'

theorem mem_dedupKeys {κ : Type} [DecidableEq κ] {x : κ} (l : List κ) :
    x ∈ dedupKeys l ↔ x ∈ l := by
  unfold dedupKeys
  rw [mem_foldl_dedup]
  simp

theorem nodup_foldl_dedup {κ : Type} [DecidableEq κ] :
    ∀ (l acc : List κ), acc.Nodup →
      (l.foldl (fun acc k => if k ∈ acc then acc else acc ++ [k]) acc).Nodup := by
  intro l
  induction l with
  | nil => intro acc h; simpa using h
  | cons k rest ih =>
    intro acc h
    simp only [List.foldl_cons]
    by_cases hk : k ∈ acc
    · rw [if_pos hk]
      exact ih acc h
    · rw [if_neg hk]
      refine ih _ ?_
      rw [List.nodup_append]
      exact ⟨h, List.nodup_singleton _, by simpa using fun hx => hk hx⟩

theorem nodup_dedupKeys {κ : Type} [DecidableEq κ] (l : List κ) :
    (dedupKeys l).Nodup :=
  nodup_foldl_dedup l [] List.nodup_nil

theorem dedupKeys_append_singleton {κ : Type} [DecidableEq κ] (L : List κ) (k : κ) :
    dedupKeys (L ++ [k]) =
      if k ∈ dedupKeys L then dedupKeys L else dedupKeys L ++ [k] := by
  unfold dedupKeys
  rw [List.foldl_append]
  rfl

theorem dedupKeys_length_congr {α κ1 κ2 : Type} [DecidableEq κ1] [DecidableEq κ2]
    (f : α → κ1) (g : α → κ2) :
    ∀ (l : List α), (∀ a ∈ l, ∀ b ∈ l, (f a = f b ↔ g a = g b)) →
      (dedupKeys (l.map f)).length = (dedupKeys (l.map g)).length := by
  intro l
  induction l using List.reverseRecOn with
  | nil => intro _; rfl
  | append_singleton l' a ih =>
    intro h
    have hsub : ∀ b ∈ l', b ∈ l' ++ [a] := fun b hb => List.mem_append.mpr (Or.inl hb)
    have ha : a ∈ l' ++ [a] := List.mem_append.mpr (Or.inr (by simp))
    have ihl := ih (fun x hx y hy => h x (hsub x hx) y (hsub y hy))
    have hmem : (f a ∈ dedupKeys (l'.map f)) ↔ (g a ∈ dedupKeys (l'.map g)) := by
      rw [mem_dedupKeys, mem_dedupKeys, List.mem_map, List.mem_map]
      constructor
      · rintro ⟨b, hb, hfb⟩
        exact ⟨b, hb, (h b (hsub b hb) a ha).mp hfb⟩
      · rintro ⟨b, hb, hgb⟩
        exact ⟨b, hb, (h b (hsub b hb) a ha).mpr hgb⟩
    rw [List.map_append, List.map_append, List.map_singleton, List.map_singleton,
      dedupKeys_append_singleton, dedupKeys_append_singleton]
    by_cases hf : f a ∈ dedupKeys (l'.map f)
    · rw [if_pos hf, if_pos (hmem.mp hf)]
      exact ihl
    · rw [if_neg hf, if_neg (fun hg => hf (hmem.mpr hg))]
      simp [ihl]

theorem getAssoc_isSome_iff_mem {K V : Type} [DecidableEq K] (l : List (K × V)) (k : K) :
    (getAssoc l k).isSome ↔ k ∈ l.map Prod.fst := by
  induction l with
  | nil => simp [getAssoc]
  | cons p rest ih =>
    rcases p with ⟨k', v⟩
    by_cases hk : k' = k
    · subst hk
      simp [getAssoc]
    · simp only [getAssoc, if_neg hk, List.map_cons, List.mem_cons]
      rw [ih]
      constructor
      · exact Or.inr
      · rintro (h | h)
        · exact absurd h.symm hk
        · exact h

theorem getAssoc_eq_none_iff {K V : Type} [DecidableEq K] (l : List (K × V)) (k : K) :
    getAssoc l k = none ↔ k ∉ l.map Prod.fst := by
  rw [← getAssoc_isSome_iff_mem]
  cases h : getAssoc l k <;> simp [h]

theorem setAssoc_of_not_mem {K V : Type} [DecidableEq K] {l : List (K × V)} {k : K}
    (h : k ∉ l.map Prod.fst) (v : V) :
    setAssoc l k v = l ++ [(k, v)] := by
  induction l with
  | nil => rfl
  | cons p rest ih =>
    rcases p with ⟨k', w⟩
    simp only [List.map_cons, List.mem_cons] at h
    push_neg at h
    simp only [setAssoc, List.cons_append]
    rw [if_neg (fun e => h.1 e.symm), ih h.2]

theorem decDigits_ne_colon (n : Nat) : ∀ d ∈ decDigits n, d ≠ 58 := by
  intro d hd
  unfold decDigits at hd
  by_cases h : n = 0
  · rw [if_pos h] at hd
    simp at hd
    omega
  · rw [if_neg h] at hd
    simp only [List.mem_map, List.mem_reverse] at hd
    obtain ⟨x, hx, rfl⟩ := hd
    have := Nat.digits_lt_base (by norm_num) hx
    omega

theorem decDigits_inj {m n : Nat} (h : decDigits m = decDigits n) : m = n := by
  unfold decDigits at h
  have hmapinj : Function.Injective (fun d : Nat => d + 48) := by
    intro a b e
    simp only at e
    omega
  have hmapinj2 : ∀ x y : List Nat, List.map (fun d => d + 48) x =
      List.map (fun d => d + 48) y → x = y :=
    fun x y hxy => List.map_injective_iff.mpr hmapinj hxy
  by_cases hm : m = 0 <;> by_cases hn : n = 0
  · omega
  · rw [if_pos hm, if_neg hn] at h
    have hrev : (Nat.digits 10 n).reverse = [0] := by
      have := hmapinj2 [0] (Nat.digits 10 n).reverse
      exact (this (by simpa using h)).symm
    have hdig : Nat.digits 10 n = [0] := by
      have := congrArg List.reverse hrev
      simpa using this
    have := Nat.ofDigits_digits 10 n
    rw [hdig] at this
    simp [Nat.ofDigits] at this
    omega
  · rw [if_neg hm, if_pos hn] at h
    have hrev : (Nat.digits 10 m).reverse = [0] := by
      have := hmapinj2 (Nat.digits 10 m).reverse [0]
      exact this (by simpa using h)
    have hdig : Nat.digits 10 m = [0] := by
      have := congrArg List.reverse hrev
      simpa using this
    have := Nat.ofDigits_digits 10 m
    rw [hdig] at this
    simp [Nat.ofDigits] at this
    omega
  · rw [if_neg hm, if_neg hn] at h
    have hrev := List.map_injective_iff.mpr hmapinj h
    have hdig : Nat.digits 10 m = Nat.digits 10 n := by
      have := congrArg List.reverse hrev
      simpa using this
    have h1 := Nat.ofDigits_digits 10 m
    have h2 := Nat.ofDigits_digits 10 n
    rw [hdig] at h1
    omega

theorem no_colon_split :
    ∀ {u v x y : List Nat}, (∀ d ∈ u, d ≠ 58) → (∀ d ∈ v, d ≠ 58) →
      u ++ 58 :: x = v ++ 58 :: y → u = v ∧ x = y := by
  intro u
  induction u with
  | nil =>
    intro v x y _ hv h
    cases v with
    | nil =>
      simp only [List.nil_append] at h
      exact ⟨rfl, by simpa using h⟩
    | cons b v' =>
      simp only [List.nil_append, List.cons_append] at h
      have hb := (List.cons_eq_cons.mp h).1
      exact absurd hb.symm (hv b (List.mem_cons_self _ _))
  | cons a u' ih =>
    intro v x y hu hv h
    cases v with
    | nil =>
      simp only [List.cons_append, List.nil_append] at h
      have ha := (List.cons_eq_cons.mp h).1
      exact absurd ha (hu a (List.mem_cons_self _ _))
    | cons b v' =>
      simp only [List.cons_append] at h
      obtain ⟨hab, htail⟩ := List.cons_eq_cons.mp h
      obtain ⟨h1, h2⟩ := ih (fun d hd => hu d (List.mem_cons_of_mem _ hd))
        (fun d hd => hv d (List.mem_cons_of_mem _ hd)) htail
      exact ⟨by rw [hab, h1], h2⟩

/-- For nonempty circuits, the hashed byte stream determines the width and
the gate count (decimal fields are colon-terminated and contain no colon). -/
theorem canonMsg_inj {g1 g2 : List ECA57Gate} {w1 w2 : Nat}
    (h1 : g1 ≠ []) (h2 : g2 ≠ [])
    (heq : (canonicalizeEca57 g1 w1).2 = (canonicalizeEca57 g2 w2).2) :
    w1 = w2 ∧ g1.length = g2.length := by
  unfold canonicalizeEca57 at heq
  rw [if_neg h1, if_neg h2] at heq
  simp only [List.append_assoc, List.singleton_append] at heq
  have heq2 := List.append_cancel_left heq
  obtain ⟨hw, hrest⟩ := no_colon_split (decDigits_ne_colon w1) (decDigits_ne_colon w2) heq2
  obtain ⟨hl, _⟩ := no_colon_split (decDigits_ne_colon g1.length)
    (decDigits_ne_colon g2.length) hrest
  exact ⟨decDigits_inj hw, decDigits_inj hl⟩

theorem insert_template_dup (H : List Nat → List Nat) (st : StoreState) (inp : InsertIn)
    (h : (getAssoc st.templates_by_hash (keyOf H inp)).isSome) :
    insert_template H st inp = (none, st) := by
  obtain ⟨r, hr⟩ := Option.isSome_iff_exists.mp h
  have hr' : getAssoc st.templates_by_hash
      ⟨BASIS_ECA57, inp.width, inp.gates.length,
        H (canonicalizeEca57 inp.gates inp.width).2⟩ = some r := hr
  simp only [insert_template]
  rw [hr']

theorem insert_template_fresh (H : List Nat → List Nat) (st : StoreState) (inp : InsertIn)
    (h : getAssoc st.templates_by_hash (keyOf H inp) = none) :
    ∃ rec : TemplateRecord,
      insert_template H st inp = (some rec,
        { templates_by_hash := setAssoc st.templates_by_hash (keyOf H inp) rec,
          templates_by_dims := setAssoc st.templates_by_dims
            ⟨BASIS_ECA57, inp.width, inp.gates.length, st.template_count + 1⟩
            (digestOf H inp),
          template_families := addToFamily st.template_families
            ⟨BASIS_ECA57, inp.family_hash.getD (digestOf H inp)⟩
            (st.template_count + 1),
          template_count := st.template_count + 1 }) ∧
      rec.template_id = st.template_count + 1 := by
  refine ⟨({ template_id := st.template_count + 1, basis_id := BASIS_ECA57,
             width := inp.width, gate_count := inp.gates.length,
             canonical_hash := digestOf H inp,
             family_hash := inp.family_hash.getD (digestOf H inp),
             origin := inp.origin,
             origin_template_id := inp.origin_template_id,
             unroll_ops := inp.unroll_ops,
             gates_encoded :=
               encode_gates_eca57 (canonicalizeEca57 inp.gates inp.width).1 } :
      TemplateRecord), ?_, rfl⟩
  have h' : getAssoc st.templates_by_hash
      ⟨BASIS_ECA57, inp.width, inp.gates.length,
        H (canonicalizeEca57 inp.gates inp.width).2⟩ = none := h
  simp only [insert_template]
  rw [h']
  rfl

theorem processInserts_invariant (H : List Nat → List Nat) :
    ∀ (inputs : List InsertIn) (st : StoreState) (processed : List InsertIn),
      st.templates_by_hash.map Prod.fst = dedupKeys (processed.map (keyOf H)) →
      st.template_count = st.templates_by_hash.length →
      st.templates_by_hash.map (fun e => e.2.template_id) =
        List.range' 1 st.template_count →
      ((processInserts H inputs st).templates_by_hash.map Prod.fst =
          dedupKeys ((processed ++ inputs).map (keyOf H)) ∧
       (processInserts H inputs st).template_count =
          (processInserts H inputs st).templates_by_hash.length ∧
       (processInserts H inputs st).templates_by_hash.map (fun e => e.2.template_id) =
          List.range' 1 (processInserts H inputs st).template_count) := by
  intro inputs
  induction inputs with
  | nil =>
    intro st processed h1 h2 h3
    simp only [processInserts, List.foldl_nil, List.append_nil]
    exact ⟨h1, h2, h3⟩
  | cons inp rest ih =>
    intro st processed h1 h2 h3
    have hstep : processInserts H (inp :: rest) st =
        processInserts H rest (insert_template H st inp).2 := rfl
    rw [hstep]
    by_cases hdup : (getAssoc st.templates_by_hash (keyOf H inp)).isSome
    · have hsnd : (insert_template H st inp).2 = st := by
        rw [insert_template_dup H st inp hdup]
      rw [hsnd]
      have hkmem : keyOf H inp ∈ dedupKeys (processed.map (keyOf H)) := by
        have hkm0 := (getAssoc_isSome_iff_mem _ _).mp hdup
        rw [h1] at hkm0
        exact hkm0
      have hded : dedupKeys ((processed ++ [inp]).map (keyOf H)) =
          dedupKeys (processed.map (keyOf H)) := by
        rw [List.map_append, List.map_singleton, dedupKeys_append_singleton,
          if_pos hkmem]
      have hmain := ih st (processed ++ [inp]) (by rw [h1, hded]) h2 h3
      rwa [List.append_assoc, List.singleton_append] at hmain
    · have hnone : getAssoc st.templates_by_hash (keyOf H inp) = none := by
        cases ho : getAssoc st.templates_by_hash (keyOf H inp)
        · rfl
        · rw [ho] at hdup
          simp at hdup
      obtain ⟨rec, hins, hid⟩ := insert_template_fresh H st inp hnone
      have hnotmem : keyOf H inp ∉ st.templates_by_hash.map Prod.fst :=
        (getAssoc_eq_none_iff _ _).mp hnone
      have hset : setAssoc st.templates_by_hash (keyOf H inp) rec =
          st.templates_by_hash ++ [(keyOf H inp, rec)] :=
        setAssoc_of_not_mem hnotmem rec
      have e1 : (insert_template H st inp).2.templates_by_hash =
          st.templates_by_hash ++ [(keyOf H inp, rec)] := by
        rw [hins]
        exact hset
      have e2 : (insert_template H st inp).2.template_count =
          st.template_count + 1 := by
        rw [hins]
      have hknotded : keyOf H inp ∉ dedupKeys (processed.map (keyOf H)) := by
        rw [mem_dedupKeys]
        intro hmem
        apply hnotmem
        rw [h1, mem_dedupKeys]
        exact hmem
      have inv1 : (insert_template H st inp).2.templates_by_hash.map Prod.fst =
          dedupKeys ((processed ++ [inp]).map (keyOf H)) := by
        rw [e1, List.map_append, List.map_singleton, h1, List.map_append,
          List.map_singleton, dedupKeys_append_singleton, if_neg hknotded]
      have inv2 : (insert_template H st inp).2.template_count =
          (insert_template H st inp).2.templates_by_hash.length := by
        rw [e1, e2, List.length_append, h2]
        rfl
      have inv3 : (insert_template H st inp).2.templates_by_hash.map
          (fun e => e.2.template_id) =
          List.range' 1 (insert_template H st inp).2.template_count := by
        rw [e1, e2, List.map_append, List.map_singleton, h3, List.range'_concat]
        have harith : 1 + 1 * st.template_count = st.template_count + 1 := by omega
        rw [harith, hid]
      have hmain := ih (insert_template H st inp).2 (processed ++ [inp]) inv1 inv2 inv3
      rwa [List.append_assoc, List.singleton_append] at hmain

/-- With an injective digest, two nonempty insert inputs collide on the
primary store key exactly when their canonical digests coincide (the hashed
byte stream determines width and gate count). -/
theorem keyOf_digestOf_iff {H : List Nat → List Nat} (hinj : Function.Injective H)
    {a b : InsertIn} (ha : a.gates ≠ []) (hb : b.gates ≠ []) :
    keyOf H a = keyOf H b ↔ digestOf H a = digestOf H b := by
  constructor
  · intro h
    exact congrArg TKey.hash h
  · intro h
    have hmsg : (canonicalizeEca57 a.gates a.width).2 =
        (canonicalizeEca57 b.gates b.width).2 := hinj h
    obtain ⟨hw, hl⟩ := canonMsg_inj ha hb hmsg
    unfold keyOf
    rw [hw, hl, h]

/-- C5 counterexample: inserting the empty circuit at widths 3 and 5 stores
two records (the primary keys differ in the width byte) while both calls
hash the same byte stream `"eca57:0:"` — so `|templates_by_hash|` exceeds
the number of distinct canonical hashes inserted, for every digest
function. -/
theorem C5_counterexample :
    (processInserts (fun m => m)
      [⟨[], 3, .SAT, none, 0, none⟩, ⟨[], 5, .SAT, none, 0, none⟩]
      emptyStore).templates_by_hash.length = 2 ∧
    (dedupKeys (([⟨[], 3, .SAT, none, 0, none⟩, ⟨[], 5, .SAT, none, 0, none⟩] :
      List InsertIn).map (digestOf (fun m => m)))).length = 1 := by
  decide

/-- C5 (amended): a duplicate-key insert returns `None` and leaves the store
unchanged; a fresh insert allocates `template_id = template_count + 1`;
after any insert sequence on a fresh store the record count equals the
number of distinct primary keys `(basis, width, gc, hash)` inserted, the
counter equals the record count, and the ids are exactly `1, 2, 3, …` in
insertion order; for collision-free digests the distinct-key count moreover
equals the distinct-hash count whenever every inserted circuit is nonempty
(the empty circuit hashes identically at every width, see the
counterexample). -/
theorem C5_insert_dedup_amended :
    (∀ (H : List Nat → List Nat) (st : StoreState) (inp : InsertIn),
      (getAssoc st.templates_by_hash (keyOf H inp)).isSome →
        insert_template H st inp = (none, st)) ∧
    (∀ (H : List Nat → List Nat) (st : StoreState) (inp : InsertIn),
      getAssoc st.templates_by_hash (keyOf H inp) = none →
        ((insert_template H st inp).1.map TemplateRecord.template_id =
            some (st.template_count + 1) ∧
         (insert_template H st inp).2.template_count = st.template_count + 1)) ∧
    (∀ (H : List Nat → List Nat) (inputs : List InsertIn),
      (processInserts H inputs emptyStore).templates_by_hash.length =
          (dedupKeys (inputs.map (keyOf H))).length ∧
      (processInserts H inputs emptyStore).template_count =
          (processInserts H inputs emptyStore).templates_by_hash.length ∧
      (processInserts H inputs emptyStore).templates_by_hash.map
          (fun e => e.2.template_id) =
          List.range' 1 (processInserts H inputs emptyStore).template_count) ∧
    (∀ (H : List Nat → List Nat), Function.Injective H →
      ∀ (inputs : List InsertIn), (∀ inp ∈ inputs, inp.gates ≠ []) →
        (processInserts H inputs emptyStore).templates_by_hash.length =
          (dedupKeys (inputs.map (digestOf H))).length) := by
  have hthird : ∀ (H : List Nat → List Nat) (inputs : List InsertIn),
      (processInserts H inputs emptyStore).templates_by_hash.length =
          (dedupKeys (inputs.map (keyOf H))).length ∧
      (processInserts H inputs emptyStore).template_count =
          (processInserts H inputs emptyStore).templates_by_hash.length ∧
      (processInserts H inputs emptyStore).templates_by_hash.map
          (fun e => e.2.template_id) =
          List.range' 1 (processInserts H inputs emptyStore).template_count := by
    intro H inputs
    have hmain := processInserts_invariant H inputs emptyStore [] rfl rfl rfl
    rw [List.nil_append] at hmain
    obtain ⟨m1, m2, m3⟩ := hmain
    refine ⟨?_, m2, m3⟩
    have hlen := congrArg List.length m1
    rw [List.length_map] at hlen
    exact hlen
  refine ⟨insert_template_dup, ?_, hthird, ?_⟩
  · intro H st inp h
    obtain ⟨rec, hins, hid⟩ := insert_template_fresh H st inp h
    constructor
    · rw [hins]
      simp [hid]
    · rw [hins]
  · intro H hinj inputs hne
    rw [(hthird H inputs).1]
    exact dedupKeys_length_congr (keyOf H) (digestOf H) inputs
      (fun a ha b hb => keyOf_digestOf_iff hinj (hne a ha) (hne b hb))

/-- C5 witness: the amended count statement evaluated for one concrete
insert of the gate `(0,1,2)` at width 3 with the identity digest. -/
theorem C5_insert_dedup_amended_witness :
    (processInserts (fun m => m) [⟨[⟨0, 1, 2⟩], 3, .SAT, none, 0, none⟩]
        emptyStore).templates_by_hash.length =
      (dedupKeys (([⟨[⟨0, 1, 2⟩], 3, .SAT, none, 0, none⟩] : List InsertIn).map
        (digestOf (fun m => m)))).length :=
  C5_insert_dedup_amended.2.2.2 (fun m => m) (fun _ _ h => h) _ (by decide)

theorem getAssoc_setAssoc_self {K V : Type} [DecidableEq K] (l : List (K × V))
    (k : K) (v : V) : getAssoc (setAssoc l k v) k = some v := by
  induction l with
  | nil => simp [setAssoc, getAssoc]
  | cons p rest ih =>
    rcases p with ⟨k', w⟩
    by_cases hk : k' = k
    · subst hk
      simp [setAssoc, getAssoc]
    · simp only [setAssoc, if_neg hk, getAssoc, if_neg hk]
      exact ih

theorem getAssoc_setAssoc_ne {K V : Type} [DecidableEq K] (l : List (K × V))
    {k q : K} (h : q ≠ k) (v : V) : getAssoc (setAssoc l k v) q = getAssoc l q := by
  induction l with
  | nil =>
    simp only [setAssoc, getAssoc]
    rw [if_neg (fun e => h e.symm)]
  | cons p rest ih =>
    rcases p with ⟨k', w⟩
    by_cases hk : k' = k
    · subst hk
      simp only [setAssoc, if_pos rfl, getAssoc]
      rw [if_neg (fun e => h e.symm), if_neg (fun e => h e.symm)]
    · simp only [setAssoc, if_neg hk, getAssoc]
      by_cases hq : k' = q
      · rw [if_pos hq, if_pos hq]
      · rw [if_neg hq, if_neg hq]
        exact ih

theorem addToPrefilter_bucket (pf : List (PKey × List Nat)) (k : PKey) (wid : Nat)
    (q : PKey) :
    (getAssoc (addToPrefilter pf k wid) q).getD [] =
      if q = k then (getAssoc pf k).getD [] ++ [wid] else (getAssoc pf q).getD [] := by
  unfold addToPrefilter
  by_cases hq : q = k
  · subst hq
    cases hg : getAssoc pf q with
    | none => simp [hg, getAssoc_setAssoc_self]
    | some e => simp [hg, getAssoc_setAssoc_self]
  · cases hg : getAssoc pf k with
    | none => simp [hg, getAssoc_setAssoc_ne _ hq, if_neg hq]
    | some e => simp [hg, getAssoc_setAssoc_ne _ hq, if_neg hq]

theorem prefilter_fold_bucket (wid : Nat) :
    ∀ (keys : List PKey) (pf : List (PKey × List Nat)) (q : PKey),
      (getAssoc (keys.foldl (fun acc k => addToPrefilter acc k wid) pf) q).getD [] =
        (getAssoc pf q).getD [] ++ List.replicate (keys.count q) wid := by
  intro keys
  induction keys with
  | nil => intro pf q; simp
  | cons k rest ih =>
    intro pf q
    simp only [List.foldl_cons]
    rw [ih, addToPrefilter_bucket]
    by_cases hq : q = k
    · subst hq
      rw [if_pos rfl, List.count_cons]
      have hbeq : (q == q) = true := by simp
      rw [hbeq]
      simp only [if_true]
      rw [List.append_assoc, List.singleton_append, ← List.replicate_succ]
    · rw [if_neg hq, List.count_cons]
      have hbeq : (k == q) = false := by
        simp only [beq_eq_false_iff_ne, ne_eq]
        exact fun e => hq e.symm
      rw [hbeq]
      simp

theorem insert_witness_dup (H : List Nat → List Nat) (st : WStoreState)
    (gates : List ECA57Gate) (width stid : Nat)
    (h : (getAssoc st.witnesses_by_hash
      ⟨BASIS_ECA57, width, gates.length, H (canonicalizeEca57 gates width).2⟩).isSome) :
    insert_witness H st gates width stid = (none, st) := by
  obtain ⟨r, hr⟩ := Option.isSome_iff_exists.mp h
  simp only [insert_witness]
  rw [hr]

theorem insert_witness_fresh (H : List Nat → List Nat) (st : WStoreState)
    (gates : List ECA57Gate) (width stid : Nat)
    (h : getAssoc st.witnesses_by_hash
      ⟨BASIS_ECA57, width, gates.length, H (canonicalizeEca57 gates width).2⟩ = none) :
    insert_witness H st gates width stid =
      (some ⟨st.witness_count + 1, BASIS_ECA57, width, gates.length,
          H (canonicalizeEca57 gates width).2,
          (canonicalizeEca57 gates width).1.flatMap
            (fun g => [g.target, g.ctrl1, g.ctrl2]), stid⟩,
       { witnesses_by_hash := setAssoc st.witnesses_by_hash
           ⟨BASIS_ECA57, width, gates.length, H (canonicalizeEca57 gates width).2⟩
           ⟨st.witness_count + 1, BASIS_ECA57, width, gates.length,
            H (canonicalizeEca57 gates width).2,
            (canonicalizeEca57 gates width).1.flatMap
              (fun g => [g.target, g.ctrl1, g.ctrl2]), stid⟩,
         witness_prefilter :=
           ((compute_kgram_tokens H (canonicalizeEca57 gates width).1 2 width) ++
             (compute_kgram_tokens H (canonicalizeEca57 gates width).1 3 width)).foldl
             (fun acc token =>
               addToPrefilter acc ⟨BASIS_ECA57, width, token⟩ (st.witness_count + 1))
             st.witness_prefilter,
         witness_count := st.witness_count + 1 }) := by
  simp only [insert_witness]
  rw [h, List.foldl_append]
  rfl

/-- C8: for every well-formed ECA57 template, `build_witnesses_from_template`
slices exactly the first `gc // 2 + 1` decoded gates, canonicalizes the
slice, dedups on `(basis, width, witness_len, witness_hash)` — returning
`None` and leaving the store unchanged on a hit — and otherwise stores the
record under `witness_id = witness_count + 1` and appends that id to the
prefilter bucket of every k-gram token (first 8 digest bytes as a
little-endian u64, `k ∈ {2, 3}`) of the canonical witness gates, once per
occurrence, leaving all other buckets unchanged. -/
theorem C8_build_witnesses (H : List Nat → List Nat) (st : WStoreState)
    (tmpl : TemplateRecord) (hb : tmpl.basis_id = BASIS_ECA57)
    (h3 : tmpl.gates_encoded.length % 3 = 0) :
    ((getAssoc st.witnesses_by_hash (witnessKeyOf H tmpl)).isSome →
      build_witnesses_from_template H st tmpl = .ok (none, st)) ∧
    (getAssoc st.witnesses_by_hash (witnessKeyOf H tmpl) = none →
      ∃ rec : WitnessRecord, ∃ st2 : WStoreState,
        build_witnesses_from_template H st tmpl = .ok (some rec, st2) ∧
        rec.witness_id = st.witness_count + 1 ∧
        rec.witness_len = (witnessGatesOf tmpl).length ∧
        rec.witness_hash = H (canonicalizeEca57 (witnessGatesOf tmpl) tmpl.width).2 ∧
        rec.source_template_id = tmpl.template_id ∧
        st2.witness_count = st.witness_count + 1 ∧
        st2.witnesses_by_hash = setAssoc st.witnesses_by_hash (witnessKeyOf H tmpl) rec ∧
        ∀ q : PKey,
          (getAssoc st2.witness_prefilter q).getD [] =
            (getAssoc st.witness_prefilter q).getD [] ++
              List.replicate
                (((witnessTokensOf H tmpl).map
                  (fun t => (⟨BASIS_ECA57, tmpl.width, t⟩ : PKey))).count q)
                (st.witness_count + 1)) := by
  have hbuild : build_witnesses_from_template H st tmpl =
      Except.ok (insert_witness H st (witnessGatesOf tmpl) tmpl.width tmpl.template_id) := by
    simp only [build_witnesses_from_template]
    rw [if_pos hb]
    rfl
  constructor
  · intro hdup
    rw [hbuild, insert_witness_dup H st (witnessGatesOf tmpl) tmpl.width
      tmpl.template_id hdup]
  · intro hnone
    rw [hbuild, insert_witness_fresh H st (witnessGatesOf tmpl) tmpl.width
      tmpl.template_id hnone]
    refine ⟨_, _, rfl, rfl, rfl, rfl, rfl, rfl, rfl, ?_⟩
    intro q
    have hfold : ((compute_kgram_tokens H (canonicalizeEca57 (witnessGatesOf tmpl)
          tmpl.width).1 2 tmpl.width) ++
        (compute_kgram_tokens H (canonicalizeEca57 (witnessGatesOf tmpl)
          tmpl.width).1 3 tmpl.width)).foldl
        (fun acc token =>
          addToPrefilter acc ⟨BASIS_ECA57, tmpl.width, token⟩ (st.witness_count + 1))
        st.witness_prefilter =
      ((witnessTokensOf H tmpl).map
          (fun t => (⟨BASIS_ECA57, tmpl.width, t⟩ : PKey))).foldl
        (fun acc k => addToPrefilter acc k (st.witness_count + 1))
        st.witness_prefilter := by
      rw [List.foldl_map]
      rfl
    show (getAssoc (((compute_kgram_tokens H (canonicalizeEca57 (witnessGatesOf tmpl)
          tmpl.width).1 2 tmpl.width) ++
        (compute_kgram_tokens H (canonicalizeEca57 (witnessGatesOf tmpl)
          tmpl.width).1 3 tmpl.width)).foldl
        (fun acc token =>
          addToPrefilter acc ⟨BASIS_ECA57, tmpl.width, token⟩ (st.witness_count + 1))
        st.witness_prefilter) q).getD [] = _
    rw [hfold, prefilter_fold_bucket]

/-- C8 witness: building the witness of the sample template in an empty
witness store succeeds. -/
theorem C8_build_witnesses_witness :
    (build_witnesses_from_template (fun m => m) ⟨[], [], 0⟩ tRecSample).isOk = true := by
  obtain ⟨rec, st2, heq, _⟩ :=
    (C8_build_witnesses (fun m => m) ⟨[], [], 0⟩ tRecSample (by decide) (by decide)).2 rfl
  rw [heq]
  rfl

/- ===================== C4 lemmas: mirror and rotation ===================== -/

theorem apply_length (g : ECA57Gate) (s : List Bool) :
    (g.apply s).length = s.length := by
  simp [ECA57Gate.apply]

theorem applyGates_cons (g : ECA57Gate) (gs : List ECA57Gate) (s : List Bool) :
    applyGates (g :: gs) s = applyGates gs (g.apply s) := rfl

theorem applyGates_append (u v : List ECA57Gate) (s : List Bool) :
    applyGates (u ++ v) s = applyGates v (applyGates u s) := by
  simp [applyGates, List.foldl_append]

theorem applyGates_length (gs : List ECA57Gate) (s : List Bool) :
    (applyGates gs s).length = s.length := by
  induction gs generalizing s with
  | nil => rfl
  | cons g gs ih => rw [applyGates_cons, ih, apply_length]

theorem set_getD_eq (s : List Bool) (i : Nat) (h : i < s.length) (d : Bool) :
    s.set i (s.getD i d) = s := by
  apply List.ext_getElem (by simp)
  intro n h1 h2
  rw [List.getElem_set]
  split
  · next he =>
    subst he
    rw [List.getD_eq_getElem?_getD, List.getElem?_eq_getElem h]
    rfl
  · rfl

theorem apply_apply_self (g : ECA57Gate) (h1 : g.target ≠ g.ctrl1)
    (h2 : g.target ≠ g.ctrl2) (s : List Bool) :
    g.apply (g.apply s) = s := by
  simp only [ECA57Gate.apply]
  by_cases ht : g.target < s.length
  · rw [getD_set_of_ne h1, getD_set_of_ne h2, getD_set_self ht, List.set_set]
    have hx : ∀ a c : Bool, Bool.xor (Bool.xor a c) c = a := by decide
    rw [hx]
    exact set_getD_eq s g.target ht false
  · simp only [List.set_eq_of_length_le (Nat.le_of_not_lt ht)]

theorem applyGates_reverse_cancel (gs : List ECA57Gate)
    (hg : ∀ g ∈ gs, g.target ≠ g.ctrl1 ∧ g.target ≠ g.ctrl2) (s : List Bool) :
    applyGates gs.reverse (applyGates gs s) = s := by
  induction gs generalizing s with
  | nil => rfl
  | cons g gs ih =>
    obtain ⟨h1, h2⟩ := hg g (List.mem_cons_self g gs)
    have hrest : ∀ x ∈ gs, x.target ≠ x.ctrl1 ∧ x.target ≠ x.ctrl2 :=
      fun x hx => hg x (List.mem_cons_of_mem g hx)
    rw [applyGates_cons, List.reverse_cons, applyGates_append, ih hrest]
    exact apply_apply_self g h1 h2 s

theorem applyGates_cancel_reverse (gs : List ECA57Gate)
    (hg : ∀ g ∈ gs, g.target ≠ g.ctrl1 ∧ g.target ≠ g.ctrl2) (s : List Bool) :
    applyGates gs (applyGates gs.reverse s) = s := by
  have h := applyGates_reverse_cancel gs.reverse
    (fun g hgm => hg g (List.mem_reverse.mp hgm)) s
  rwa [List.reverse_reverse] at h

theorem mirror_identity_iff (gs : List ECA57Gate) (w : Nat)
    (hg : ∀ g ∈ gs, g.target ≠ g.ctrl1 ∧ g.target ≠ g.ctrl2) :
    isIdentityOn (mirrorEca57 gs) w ↔ isIdentityOn gs w := by
  unfold mirrorEca57
  constructor
  · intro hid s hs
    have hc := applyGates_reverse_cancel gs hg s
    have h2 := hid (applyGates gs s) (by rw [applyGates_length, hs])
    rw [h2] at hc
    exact hc
  · intro hid s hs
    have hc := applyGates_reverse_cancel gs hg s
    rw [hid s hs] at hc
    exact hc

theorem identity_append_swap (u v : List ECA57Gate) (w : Nat)
    (hu : ∀ g ∈ u, g.target ≠ g.ctrl1 ∧ g.target ≠ g.ctrl2)
    (hid : isIdentityOn (u ++ v) w) : isIdentityOn (v ++ u) w := by
  intro s hs
  rw [applyGates_append]
  have hr : applyGates u (applyGates u.reverse s) = s :=
    applyGates_cancel_reverse u hu s
  have hlen : (applyGates u.reverse s).length = w := by
    rw [applyGates_length, hs]
  have h2 := hid (applyGates u.reverse s) hlen
  rw [applyGates_append, hr] at h2
  rw [h2]
  exact hr

theorem rotate_identity_iff (gs : List ECA57Gate) (w r : Nat)
    (hg : ∀ g ∈ gs, g.target ≠ g.ctrl1 ∧ g.target ≠ g.ctrl2) :
    isIdentityOn (rotate gs r) w ↔ isIdentityOn gs w := by
  unfold rotate
  split
  · exact Iff.rfl
  · constructor
    · intro hid
      have h1 := identity_append_swap (gs.drop (r % gs.length))
        (gs.take (r % gs.length)) w
        (fun g hgm => hg g (List.mem_of_mem_drop hgm)) hid
      rwa [List.take_append_drop] at h1
    · intro hid
      apply identity_append_swap (gs.take (r % gs.length))
        (gs.drop (r % gs.length)) w
        (fun g hgm => hg g (List.mem_of_mem_take hgm))
      rwa [List.take_append_drop]

theorem mem_mirror {g : ECA57Gate} {gs : List ECA57Gate}
    (h : g ∈ mirrorEca57 gs) : g ∈ gs := List.mem_reverse.mp h

theorem mem_rotate {g : ECA57Gate} {gs : List ECA57Gate} {r : Nat}
    (h : g ∈ rotate gs r) : g ∈ gs := by
  unfold rotate at h
  split at h
  · exact h
  · rcases List.mem_append.mp h with h1 | h1
    · exact List.mem_of_mem_drop h1
    · exact List.mem_of_mem_take h1

/- ===================== C4 lemmas: wire permutation ===================== -/

theorem gatherState_length (ρ : List Nat) (s : List Bool) :
    (gatherState ρ s).length = ρ.length := by
  simp [gatherState]

theorem invPerm_length (π : List Nat) : (invPerm π).length = π.length := by
  simp [invPerm]

theorem gather_inv_eq (π : List Nat) (s : List Bool) :
    gatherState (invPerm π) s =
      (List.range π.length).map (fun j => s.getD (List.indexOf j π) false) := by
  simp [gatherState, invPerm, List.map_map, Function.comp]

theorem getD_map_range {α : Type} (n : Nat) (f : Nat → α) (j : Nat)
    (hj : j < n) (d : α) : ((List.range n).map f).getD j d = f j := by
  rw [List.getD_eq_getElem _ _ (by simpa using hj)]
  simp

theorem gatherState_getD (ρ : List Nat) (s : List Bool) (m : Nat)
    (hm : m < ρ.length) :
    (gatherState ρ s).getD m false = s.getD (ρ.getD m 0) false := by
  rw [List.getD_eq_getElem _ _ (by simpa [gatherState] using hm)]
  simp [gatherState]
  rw [List.getElem?_eq_getElem hm]
  rfl

theorem perm_indexOf_lt (π : List Nat) (w : Nat) (hπ : π.Perm (List.range w))
    (j : Nat) (hj : j < w) : List.indexOf j π < π.length :=
  List.indexOf_lt_length.mpr (hπ.mem_iff.mpr (List.mem_range.mpr hj))

theorem perm_getD_indexOf (π : List Nat) (w : Nat) (hπ : π.Perm (List.range w))
    (j : Nat) (hj : j < w) : π.getD (List.indexOf j π) 0 = j := by
  rw [List.getD_eq_getElem _ _ (perm_indexOf_lt π w hπ j hj)]
  exact List.getElem_indexOf (perm_indexOf_lt π w hπ j hj)

theorem perm_indexOf_getD (π : List Nat) (w : Nat) (hπ : π.Perm (List.range w))
    (i : Nat) (hi : i < w) : List.indexOf (π.getD i 0) π = i := by
  have hw : π.length = w := by simpa using hπ.length_eq
  rw [List.getD_eq_getElem _ _ (by rw [hw]; exact hi)]
  exact List.indexOf_getElem (hπ.nodup_iff.mpr (List.nodup_range w)) i
    (by rw [hw]; exact hi)

theorem perm_getD_lt (π : List Nat) (w : Nat) (hπ : π.Perm (List.range w))
    (i : Nat) (hi : i < w) : π.getD i 0 < w := by
  have hw : π.length = w := by simpa using hπ.length_eq
  have h1 : i < π.length := by rw [hw]; exact hi
  rw [List.getD_eq_getElem _ _ h1]
  have hm : π[i] ∈ π := List.getElem_mem h1
  rw [hπ.mem_iff, List.mem_range] at hm
  exact hm

theorem set_map_range_gather (π : List Nat) (w : Nat)
    (hπ : π.Perm (List.range w)) (s : List Bool) (hs : s.length = w)
    (t : Nat) (htw : t < w) (x : Bool) :
    ((List.range π.length).map (fun j => s.getD (List.indexOf j π) false)).set
        (π.getD t 0) x =
      (List.range π.length).map
        (fun j => (s.set t x).getD (List.indexOf j π) false) := by
  have hw : π.length = w := by simpa using hπ.length_eq
  apply List.ext_getElem (by simp)
  intro k hk1 hk2
  have hkw : k < w := by
    have hk : k < π.length := by simpa using hk1
    rw [hw] at hk
    exact hk
  rw [List.getElem_set]
  have hRHS : ((List.range π.length).map
      (fun j => (s.set t x).getD (List.indexOf j π) false))[k] =
      (s.set t x).getD (List.indexOf k π) false := by
    simp
  rw [hRHS]
  by_cases hTk : π.getD t 0 = k
  · rw [if_pos hTk]
    have hik : List.indexOf k π = t := by
      rw [← hTk]
      exact perm_indexOf_getD π w hπ t htw
    rw [hik, getD_set_self (show t < s.length by rw [hs]; exact htw)]
  · rw [if_neg hTk]
    have hik : t ≠ List.indexOf k π := by
      intro he
      apply hTk
      rw [he]
      exact perm_getD_indexOf π w hπ k hkw
    rw [getD_set_of_ne hik]
    simp

theorem apply_permute_gather (π : List Nat) (w : Nat)
    (hπ : π.Perm (List.range w)) (g : ECA57Gate) (hv : validGate w g)
    (s : List Bool) (hs : s.length = w) :
    (permuteGate π g).apply (gatherState (invPerm π) s) =
      gatherState (invPerm π) (g.apply s) := by
  obtain ⟨-, -, -, ht, hc1, hc2⟩ := hv
  have hw : π.length = w := by simpa using hπ.length_eq
  rw [gather_inv_eq, gather_inv_eq]
  simp only [ECA57Gate.apply, permuteGate]
  rw [getD_map_range π.length _ (π.getD g.target 0)
        (by rw [hw]; exact perm_getD_lt π w hπ g.target ht) false,
      getD_map_range π.length _ (π.getD g.ctrl1 0)
        (by rw [hw]; exact perm_getD_lt π w hπ g.ctrl1 hc1) false,
      getD_map_range π.length _ (π.getD g.ctrl2 0)
        (by rw [hw]; exact perm_getD_lt π w hπ g.ctrl2 hc2) false,
      perm_indexOf_getD π w hπ g.target ht,
      perm_indexOf_getD π w hπ g.ctrl1 hc1,
      perm_indexOf_getD π w hπ g.ctrl2 hc2]
  exact set_map_range_gather π w hπ s hs g.target ht _

theorem applyGates_permute_gather (π : List Nat) (w : Nat)
    (hπ : π.Perm (List.range w)) (gs : List ECA57Gate)
    (hv : ∀ g ∈ gs, validGate w g) (s : List Bool) (hs : s.length = w) :
    applyGates (gs.map (permuteGate π)) (gatherState (invPerm π) s) =
      gatherState (invPerm π) (applyGates gs s) := by
  induction gs generalizing s with
  | nil => rfl
  | cons g gs ih =>
    rw [List.map_cons, applyGates_cons, applyGates_cons,
        apply_permute_gather π w hπ g (hv g (List.mem_cons_self g gs)) s hs]
    exact ih (fun x hx => hv x (List.mem_cons_of_mem g hx)) (g.apply s)
      (by rw [apply_length, hs])

theorem gather_inv_inj (π : List Nat) (w : Nat) (hπ : π.Perm (List.range w))
    (a b : List Bool) (ha : a.length = w) (hb : b.length = w)
    (h : gatherState (invPerm π) a = gatherState (invPerm π) b) : a = b := by
  have hw : π.length = w := by simpa using hπ.length_eq
  rw [gather_inv_eq, gather_inv_eq] at h
  apply List.ext_getElem (by rw [ha, hb])
  intro i hi1 hi2
  have hiw : i < w := by rw [← ha]; exact hi1
  have hjw : π.getD i 0 < w := perm_getD_lt π w hπ i hiw
  have h2 : ((List.range π.length).map
        (fun j => a.getD (List.indexOf j π) false)).getD (π.getD i 0) false =
      ((List.range π.length).map
        (fun j => b.getD (List.indexOf j π) false)).getD (π.getD i 0) false := by
    rw [h]
  rw [getD_map_range π.length _ _ (by rw [hw]; exact hjw) false,
      getD_map_range π.length _ _ (by rw [hw]; exact hjw) false,
      perm_indexOf_getD π w hπ i hiw] at h2
  rw [List.getD_eq_getElem _ _ hi1, List.getD_eq_getElem _ _ hi2] at h2
  exact h2

theorem gather_inv_gather (π : List Nat) (w : Nat)
    (hπ : π.Perm (List.range w)) (t : List Bool) (htl : t.length = w) :
    gatherState (invPerm π) (gatherState π t) = t := by
  have hw : π.length = w := by simpa using hπ.length_eq
  rw [gather_inv_eq]
  apply List.ext_getElem (by simp [hw, htl])
  intro k hk1 hk2
  have hkw : k < w := by
    have hk : k < π.length := by simpa using hk1
    rw [hw] at hk
    exact hk
  have hL : ((List.range π.length).map
      (fun j => (gatherState π t).getD (List.indexOf j π) false))[k] =
      (gatherState π t).getD (List.indexOf k π) false := by
    simp
  rw [hL, gatherState_getD π t _ (perm_indexOf_lt π w hπ k hkw),
      perm_getD_indexOf π w hπ k hkw,
      List.getD_eq_getElem _ _ (by rw [htl]; exact hkw)]

theorem permute_identity_iff (π : List Nat) (gs : List ECA57Gate) (w : Nat)
    (hπ : π.Perm (List.range w)) (hv : ∀ g ∈ gs, validGate w g) :
    isIdentityOn (gs.map (permuteGate π)) w ↔ isIdentityOn gs w := by
  have hw : π.length = w := by simpa using hπ.length_eq
  constructor
  · intro hid s hs
    have h1 := applyGates_permute_gather π w hπ gs hv s hs
    have hlen : (gatherState (invPerm π) s).length = w := by
      rw [gatherState_length, invPerm_length, hw]
    rw [hid (gatherState (invPerm π) s) hlen] at h1
    exact (gather_inv_inj π w hπ s (applyGates gs s) hs
      (by rw [applyGates_length, hs]) h1).symm
  · intro hid t htl
    have hsur := gather_inv_gather π w hπ t htl
    have h1 := applyGates_permute_gather π w hπ gs hv (gatherState π t)
      (by rw [gatherState_length, hw])
    rw [hid (gatherState π t) (by rw [gatherState_length, hw])] at h1
    rw [hsur] at h1
    exact h1

/- ===================== C4 lemmas: commuting swaps and BFS ===================== -/

theorem list_split_two {α : Type} (l : List α) (i : Nat) (a b : α)
    (ha : l[i]? = some a) (hb : l[i + 1]? = some b) :
    l = l.take i ++ a :: b :: l.drop (i + 2) ∧
      (l.set i b).set (i + 1) a = l.take i ++ b :: a :: l.drop (i + 2) := by
  induction l generalizing i with
  | nil => simp at ha
  | cons x xs ih =>
    cases i with
    | zero =>
      cases xs with
      | nil => simp at hb
      | cons y ys =>
        simp only [List.getElem?_cons_zero, Option.some.injEq] at ha
        simp only [List.getElem?_cons_succ, List.getElem?_cons_zero,
          Option.some.injEq] at hb
        subst ha
        subst hb
        exact ⟨rfl, rfl⟩
    | succ j =>
      simp only [List.getElem?_cons_succ] at ha hb
      obtain ⟨h1, h2⟩ := ih j ha hb
      have harith : j + 1 + 2 = j + 2 + 1 := by omega
      constructor
      · rw [harith, List.take_succ_cons, List.drop_succ_cons, List.cons_append]
        exact congrArg (fun t => x :: t) h1
      · have harith2 : j + 1 + 1 = (j + 1) + 1 := rfl
        rw [harith, List.set_cons_succ, harith2, List.set_cons_succ,
          List.take_succ_cons, List.drop_succ_cons, List.cons_append]
        exact congrArg (fun t => x :: t) h2

theorem swapAt_applyGates (l : List ECA57Gate) (i : Nat) (a b : ECA57Gate)
    (ha : l[i]? = some a) (hb : l[i + 1]? = some b)
    (hc : eca57Commutes a b = true) (s : List Bool) :
    applyGates (swapAt l i) s = applyGates l s := by
  obtain ⟨h1, h2⟩ := list_split_two l i a b ha hb
  have hdisj := (eca57Commutes_iff_disjoint a b).mp hc
  unfold swapAt
  rw [ha, hb]
  show applyGates ((l.set i b).set (i + 1) a) s = applyGates l s
  rw [h2]
  conv_rhs => rw [h1]
  rw [applyGates_append, applyGates_append, applyGates_cons, applyGates_cons,
    applyGates_cons, applyGates_cons]
  rw [apply_comm_of_disjoint a b hdisj]

theorem mem_adjacentCommutingPairs {l : List ECA57Gate} {i : Nat}
    (h : i ∈ adjacentCommutingPairs l) :
    i + 1 < l.length ∧
      eca57Commutes (l.getD i ⟨0, 1, 2⟩) (l.getD (i + 1) ⟨0, 1, 2⟩) = true := by
  unfold adjacentCommutingPairs at h
  rw [List.mem_filter, List.mem_range] at h
  exact ⟨by omega, by simpa using h.2⟩

theorem swapAt_applyGates_of_mem (l : List ECA57Gate) {i : Nat}
    (hi : i ∈ adjacentCommutingPairs l) (s : List Bool) :
    applyGates (swapAt l i) s = applyGates l s := by
  obtain ⟨hlt, hcomm⟩ := mem_adjacentCommutingPairs hi
  have hilt : i < l.length := by omega
  have ha : l[i]? = some l[i] := List.getElem?_eq_getElem hilt
  have hb : l[i + 1]? = some l[i + 1] := List.getElem?_eq_getElem hlt
  rw [List.getD_eq_getElem _ _ hilt, List.getD_eq_getElem _ _ hlt] at hcomm
  exact swapAt_applyGates l i _ _ ha hb hcomm s

theorem foldl_acc_inv {α : Type}
    (f : (List (List ECA57Gate) × List (List Nat)) → α →
      (List (List ECA57Gate) × List (List Nat)))
    (P : List ECA57Gate → Prop) :
    ∀ (idxs : List α),
      (∀ acc, ∀ x ∈ idxs, ∀ l ∈ (f acc x).1, l ∈ acc.1 ∨ P l) →
      ∀ acc, (∀ l ∈ acc.1, P l) → ∀ l ∈ (idxs.foldl f acc).1, P l := by
  intro idxs
  induction idxs with
  | nil => intro _ acc hacc l hl; exact hacc l hl
  | cons i is ih =>
    intro hf acc hacc l hl
    rw [List.foldl_cons] at hl
    refine ih (fun acc2 x hx => hf acc2 x (List.mem_cons_of_mem i hx))
      (f acc i) ?_ l hl
    intro l2 hl2
    rcases hf acc i (List.mem_cons_self i is) l2 hl2 with h | h
    · exact hacc l2 h
    · exact h

theorem bfs_ext (H : List Nat → List Nat) (width : Nat)
    (seed : List ECA57Gate) :
    ∀ (fuel : Nat) (queue : List (List ECA57Gate)) (visited : List (List Nat)),
      (∀ l ∈ queue, ∀ s, applyGates l s = applyGates seed s) →
      ∀ l ∈ gateSwapBfsAux H width fuel queue visited,
        ∀ s, applyGates l s = applyGates seed s := by
  intro fuel
  induction fuel with
  | zero =>
    intro queue visited hq l hl
    simp [gateSwapBfsAux] at hl
  | succ n ih =>
    intro queue visited hq l hl
    cases queue with
    | nil => simp [gateSwapBfsAux] at hl
    | cons current rest =>
      simp only [gateSwapBfsAux] at hl
      rcases List.mem_cons.mp hl with heq | hl2
      · subst heq
        exact hq l (List.mem_cons_self l rest)
      · refine ih _ _ ?_ l hl2
        refine foldl_acc_inv _
          (fun l2 => ∀ s, applyGates l2 s = applyGates seed s)
          (adjacentCommutingPairs current) ?_ (rest, visited) ?_
        · intro acc x hx l2 hl2b
          simp only at hl2b
          split at hl2b
          · exact Or.inl hl2b
          · rcases List.mem_append.mp hl2b with h | h
            · exact Or.inl h
            · rw [List.mem_singleton] at h
              subst h
              refine Or.inr (fun s => ?_)
              rw [swapAt_applyGates_of_mem current hx s]
              exact hq current (List.mem_cons_self current rest) s
        · intro l2 hl2c
          exact hq l2 (List.mem_cons_of_mem current hl2c)

theorem gateSwapDfs_ext (H : List Nat → List Nat) (gates : List ECA57Gate)
    (width maxNodes : Nat) :
    ∀ l ∈ gateSwapDfs H gates width maxNodes,
      ∀ s, applyGates l s = applyGates gates s := by
  intro l hl
  refine bfs_ext H width gates maxNodes [gates] _ ?_ l hl
  intro l2 hl2
  rw [List.mem_singleton] at hl2
  subst hl2
  intro s
  rfl

/- ===================== C4 lemmas: permutation enumeration and stages ===================== -/

theorem getD_cons_eraseIdx_perm (l : List Nat) (i : Nat) (hi : i < l.length) :
    (l.getD i 0 :: l.eraseIdx i).Perm l := by
  rw [List.getD_eq_getElem _ _ hi, List.eraseIdx_eq_take_drop_succ]
  have hsplit : l.take i ++ l[i] :: l.drop (i + 1) = l := by
    rw [List.getElem_cons_drop]
    exact List.take_append_drop i l
  have hperm : (l[i] :: (l.take i ++ l.drop (i + 1))).Perm
      (l.take i ++ l[i] :: l.drop (i + 1)) := List.perm_middle.symm
  rw [hsplit] at hperm
  exact hperm

theorem mem_permsLexAux_perm :
    ∀ (fuel : Nat) (l : List Nat), l.length ≤ fuel →
      ∀ p ∈ permsLexAux fuel l, p.Perm l := by
  intro fuel
  induction fuel with
  | zero =>
    intro l hl p hp
    have hnil : l = [] := List.length_eq_zero.mp (Nat.le_zero.mp hl)
    subst hnil
    simp [permsLexAux] at hp
    subst hp
    exact List.Perm.refl []
  | succ n ih =>
    intro l hl p hp
    by_cases hnil : l = []
    · subst hnil
      simp [permsLexAux] at hp
      subst hp
      exact List.Perm.refl []
    · simp only [permsLexAux] at hp
      rw [if_neg hnil, List.mem_flatMap] at hp
      obtain ⟨i, hi, hp2⟩ := hp
      rw [List.mem_range] at hi
      rw [List.mem_map] at hp2
      obtain ⟨q, hq, heq⟩ := hp2
      subst heq
      have hlen : (l.eraseIdx i).length ≤ n := by
        rw [List.length_eraseIdx, if_pos hi]
        omega
      exact ((ih (l.eraseIdx i) hlen q hq).cons _).trans
        (getD_cons_eraseIdx_perm l i hi)

theorem mem_permsLex_perm (l : List Nat) (p : List Nat)
    (hp : p ∈ permsLex l) : p.Perm l :=
  mem_permsLexAux_perm l.length l (Nat.le_refl _) p hp

theorem mem_unrollBase1 {gates : List ECA57Gate} {config : UnrollConfig}
    {vp : List ECA57Gate × Nat} (h : vp ∈ unrollBase1 gates config) :
    vp.1 = gates ∨ vp.1 = mirrorEca57 gates := by
  unfold unrollBase1 at h
  split at h
  · simp only [List.cons_append, List.nil_append, List.mem_cons,
      List.not_mem_nil, or_false] at h
    rcases h with heq | heq
    · exact Or.inl (by rw [heq])
    · exact Or.inr (by rw [heq])
  · rw [List.mem_singleton] at h
    exact Or.inl (by rw [h])

theorem mem_unrollBase2 {gates : List ECA57Gate} {config : UnrollConfig}
    {vp : List ECA57Gate × Nat} (h : vp ∈ unrollBase2 gates config) :
    vp.1 = gates ∨ vp.1 = mirrorEca57 gates ∨
      ∃ r, vp.1 = rotate gates r ∨ vp.1 = mirrorEca57 (rotate gates r) := by
  unfold unrollBase2 at h
  split at h
  · rcases List.mem_append.mp h with h1 | h1
    · rcases mem_unrollBase1 h1 with h2 | h2
      · exact Or.inl h2
      · exact Or.inr (Or.inl h2)
    · rw [List.mem_flatMap] at h1
      obtain ⟨r, hr, h2⟩ := h1
      rcases List.mem_cons.mp h2 with heq | h3
      · exact Or.inr (Or.inr ⟨r, Or.inl (by rw [heq])⟩)
      · split at h3
        · rw [List.mem_singleton] at h3
          exact Or.inr (Or.inr ⟨r, Or.inr (by rw [h3])⟩)
        · simp at h3
  · rcases mem_unrollBase1 h with h2 | h2
    · exact Or.inl h2
    · exact Or.inr (Or.inl h2)

theorem mem_unrollPermuted {gates : List ECA57Gate} {width : Nat}
    {config : UnrollConfig} {vp : List ECA57Gate × Nat}
    (h : vp ∈ unrollPermuted gates width config) :
    ∃ bp ∈ unrollBase2 gates config, ∃ p : List Nat,
      p.Perm (List.range width) ∧ vp.1 = bp.1.map (permuteGate p) := by
  simp only [unrollPermuted] at h
  split at h
  · rw [List.mem_flatMap] at h
    obtain ⟨bp, hbp, h2⟩ := h
    rw [List.mem_map] at h2
    obtain ⟨p, hp2, heq⟩ := h2
    rw [List.mem_filter] at hp2
    obtain ⟨hp2a, hp2b⟩ := hp2
    have hpl : p ∈ permsLex (List.range width) := by
      by_cases hc : config.max_permutations < (permsLex (List.range width)).length
      · rw [if_pos hc] at hp2a
        exact List.mem_of_mem_take hp2a
      · rw [if_neg hc] at hp2a
        exact hp2a
    exact ⟨bp, hbp, p, mem_permsLex_perm _ p hpl, by rw [← heq]⟩
  · simp at h

theorem mem_unrollTemplate {H : List Nat → List Nat} {gates : List ECA57Gate}
    {width : Nat} {config : UnrollConfig} {vp : List ECA57Gate × Nat}
    (h : vp ∈ unrollTemplate H gates width config) :
    ∃ bp, (bp ∈ unrollBase2 gates config ∨
        bp ∈ unrollPermuted gates width config) ∧
      (vp.1 = bp.1 ∨
        vp.1 ∈ gateSwapDfs H bp.1 width config.swap_dfs_budget) := by
  simp only [unrollTemplate] at h
  split at h
  · rw [List.mem_flatMap] at h
    obtain ⟨bp, hbp, h2⟩ := h
    rw [List.mem_map] at h2
    obtain ⟨sw, hsw, heq⟩ := h2
    refine ⟨bp, ?_, Or.inr ?_⟩
    · rcases List.mem_append.mp hbp with h3 | h3
      · exact Or.inl h3
      · exact Or.inr h3
    · rw [← heq]
      exact hsw
  · refine ⟨vp, ?_, Or.inl rfl⟩
    rcases List.mem_append.mp h with h3 | h3
    · exact Or.inl h3
    · exact Or.inr h3

theorem mem_unrollBase2_subset {gates : List ECA57Gate} {config : UnrollConfig}
    {vp : List ECA57Gate × Nat} (h : vp ∈ unrollBase2 gates config)
    {g : ECA57Gate} (hg : g ∈ vp.1) : g ∈ gates := by
  rcases mem_unrollBase2 h with h1 | h1 | ⟨r, h1 | h1⟩ <;> rw [h1] at hg
  · exact hg
  · exact mem_mirror hg
  · exact mem_rotate hg
  · exact mem_rotate (mem_mirror hg)

theorem unrollBase2_identity_iff {gates : List ECA57Gate} {w : Nat}
    {config : UnrollConfig} (hvalid : ∀ g ∈ gates, validGate w g)
    {vp : List ECA57Gate × Nat} (h : vp ∈ unrollBase2 gates config) :
    (isIdentityOn vp.1 w ↔ isIdentityOn gates w) := by
  have hne : ∀ g ∈ gates, g.target ≠ g.ctrl1 ∧ g.target ≠ g.ctrl2 :=
    fun g hg => ⟨(hvalid g hg).1, (hvalid g hg).2.1⟩
  rcases mem_unrollBase2 h with h1 | h1 | ⟨r, h1 | h1⟩ <;> rw [h1]
  · exact mirror_identity_iff gates w hne
  · exact rotate_identity_iff gates w r hne
  · exact (mirror_identity_iff (rotate gates r) w
      (fun g hg => hne g (mem_rotate hg))).trans
      (rotate_identity_iff gates w r hne)

/-- C4: for every seed gate list over width `w` with well-formed gates and
every unroll configuration, every variant yielded by `unroll_template`
computes the identity permutation on width-`w` states if and only if the
seed does — mirror, rotation, wire permutation and commuting adjacent
swaps each preserve the identity property in both directions. -/
theorem C4_unroll_identity (H : List Nat → List Nat) (gates : List ECA57Gate)
    (width : Nat) (config : UnrollConfig)
    (hvalid : ∀ g ∈ gates, validGate width g) :
    ∀ vp ∈ unrollTemplate H gates width config,
      (isIdentityOn vp.1 width ↔ isIdentityOn gates width) := by
  intro vp hvp
  obtain ⟨bp, hbp, hsw⟩ := mem_unrollTemplate hvp
  have hbase : isIdentityOn bp.1 width ↔ isIdentityOn gates width := by
    rcases hbp with h1 | h1
    · exact unrollBase2_identity_iff hvalid h1
    · obtain ⟨bp2, hbp2, p, hperm, heq⟩ := mem_unrollPermuted h1
      rw [heq]
      exact (permute_identity_iff p bp2.1 width hperm
        (fun g hg => hvalid g (mem_unrollBase2_subset hbp2 hg))).trans
        (unrollBase2_identity_iff hvalid hbp2)
  rcases hsw with h2 | h2
  · rw [h2]
    exact hbase
  · have hext := gateSwapDfs_ext H bp.1 width config.swap_dfs_budget vp.1 h2
    have hiff : isIdentityOn vp.1 width ↔ isIdentityOn bp.1 width := by
      constructor
      · intro hid s hs
        rw [← hext s]
        exact hid s hs
      · intro hid s hs
        rw [hext s]
        exact hid s hs
    exact hiff.trans hbase

/-- C4 witness: the valid-gate hypothesis holds for the concrete two-gate
identity seed `[(0,1,2), (0,1,2)]` at width 3, and the theorem applies to
it with the identity digest function and a small swap budget. -/
theorem C4_unroll_identity_witness :
    (∀ g ∈ ([⟨0, 1, 2⟩, ⟨0, 1, 2⟩] : List ECA57Gate), validGate 3 g) ∧
      ∀ vp ∈ unrollTemplate (fun m => m) [⟨0, 1, 2⟩, ⟨0, 1, 2⟩] 3
          ⟨true, true, true, true, 4, 24⟩,
        (isIdentityOn vp.1 3 ↔ isIdentityOn [⟨0, 1, 2⟩, ⟨0, 1, 2⟩] 3) :=
  ⟨by decide, C4_unroll_identity (fun m => m) [⟨0, 1, 2⟩, ⟨0, 1, 2⟩] 3
    ⟨true, true, true, true, 4, 24⟩ (by decide)⟩
